import Mathlib

/-!
# Verification of the cuemap engine core

Shallow embedding of the cuemap engine (Rust sources under src/): the
concurrent memory store and inverted cue index, the consolidated recall
ranker, cue normalization, taxonomy validation, alias expansion, the
grounding selector and the snapshot persistence layer.

Modelling conventions:
* Rust strings are Lean strings; Rust to_lowercase and trim are modelled
  ASCII-wise (rlower, rtrim below), Unicode-faithful on the inputs the
  claims exercise.
* DashMap and HashMap values are association lists, first binding wins on
  lookup; insertion replaces in place or appends.
* IndexSet (the OrderedSet backing) is a duplicate-free list, oldest
  element first, tail = most recent.
* f64 arithmetic is modelled by the real numbers; sqrt is Real.sqrt and
  log10 is Real.logb 10.  No reachable input of the claims produces NaN
  or infinity, and u32/usize arithmetic stays far from overflow, so the
  exact model agrees with the floating point code on them.
* Timestamps (SystemTime) are abstract naturals supplied as arguments.
* Memory metadata values (serde_json::Value in the source) are modelled
  as strings; the claims only ever read string-valued entries.
* The fields cues and reinforcement_count of Memory are read by
  src/src/engine.rs but their declaration is missing from the Memory
  struct in src/src/structures.rs as given; they are modelled from the
  spec (data model section 3 and the frequency rule of section 4.2).
-/

namespace CueMap

/-- ASCII model of Rust char whitespace (the trim set). -/
def wsChar (c : Char) : Bool :=
  c = ' ' || c = '\t' || c = '\n' || c = '\r'

/-- ASCII model of Rust char lowercasing. -/
def rlowerChar (c : Char) : Char :=
  if 65 ≤ c.toNat ∧ c.toNat ≤ 90 then Char.ofNat (c.toNat + 32) else c

/-- Model of Rust str::to_lowercase. -/
def rlower (s : String) : String :=
  String.mk (s.data.map rlowerChar)

/-- Trim leading and trailing whitespace from a char list. -/
def trimL (l : List Char) : List Char :=
  ((l.dropWhile wsChar).reverse.dropWhile wsChar).reverse

/-- Model of Rust str::trim. -/
def rtrim (s : String) : String :=
  String.mk (trimL s.data)

/-- The cue key normalization used throughout engine.rs:
cue.to_lowercase().trim().to_string(). -/
def engine_norm (c : String) : String :=
  rtrim (rlower c)

/-! ## Ordered sets (structures.rs, OrderedSet over IndexSet) -/

namespace OrderedSet

/-- structures.rs OrderedSet.add: shift_remove the item if present, then
insert at the end (most recent position). -/
def add (l : List String) (x : String) : List String :=
  l.filter (fun y => y ≠ x) ++ [x]

/-- structures.rs OrderedSet.move_to_front (the name in the source; it in
fact moves to the most-recent END): if the item is present, remove it and
re-insert at the end, otherwise leave the set unchanged. -/
def move_to_front (l : List String) (x : String) : List String :=
  if x ∈ l then l.filter (fun y => y ≠ x) ++ [x] else l

/-- structures.rs OrderedSet.remove (shift_remove). -/
def remove (l : List String) (x : String) : List String :=
  l.filter (fun y => y ≠ x)

/-- structures.rs OrderedSet.get_recent: items in reverse order (most
recent first), optionally limited. -/
def get_recent (l : List String) (limit : Option Nat) : List String :=
  match limit with
  | some lim => l.reverse.take lim
  | none => l.reverse

end OrderedSet

/-! ## Association list model of DashMap / HashMap -/

/-- Lookup: value of the first binding of the key. -/
def alookup {α : Type} (m : List (String × α)) (k : String) : Option α :=
  (m.find? (fun p => p.1 = k)).map (fun p => p.2)

/-- DashMap insert: replace the value in place if the key is bound,
otherwise append a new binding. -/
def aset {α : Type} (m : List (String × α)) (k : String) (v : α) :
    List (String × α) :=
  if (m.find? (fun p => p.1 = k)).isSome then
    m.map (fun p => if p.1 = k then (k, v) else p)
  else
    m ++ [(k, v)]

/-- DashMap entry(k).or_insert_with(d) followed by a mutation f: modify the
bound value in place, or bind k to f applied to the default. -/
def aupdate {α : Type} (m : List (String × α)) (k : String) (d : α)
    (f : α → α) : List (String × α) :=
  if (m.find? (fun p => p.1 = k)).isSome then
    m.map (fun p => if p.1 = k then (k, f p.2) else p)
  else
    m ++ [(k, f d)]

/-- DashMap get_mut based mutation: modify the bound value in place if the
key is bound, otherwise leave the map unchanged. -/
def amodify {α : Type} (m : List (String × α)) (k : String) (f : α → α) :
    List (String × α) :=
  m.map (fun p => if p.1 = k then (k, f p.2) else p)

/-- DashMap remove. -/
def aremove {α : Type} (m : List (String × α)) (k : String) :
    List (String × α) :=
  m.filter (fun p => p.1 ≠ k)

/-! ## Memory and engine state (structures.rs / engine.rs) -/

/-- structures.rs Memory.  The fields cues and reinforcement_count are
read by engine.rs; their declaration is missing from the struct as given
in src, so they are modelled from the spec (section 3 data model;
section 4.2: implementations must track a per-Memory reinforcement
counter incremented by reinforce). -/
structure Memory where
  id : String
  content : String
  created_at : Nat
  last_accessed : Nat
  metadata : List (String × String)
  cues : List String
  reinforcement_count : Nat
  deriving DecidableEq, Repr

/-- Memory::new followed by the cue assignment done in add_memory. -/
def Memory.new (id content : String) (metadata : List (String × String))
    (cues : List String) (now : Nat) : Memory :=
  { id := id, content := content, created_at := now, last_accessed := now,
    metadata := metadata, cues := cues, reinforcement_count := 0 }

/-- Memory::touch: refresh last_accessed.  The reinforcement counter bump
is modelled from the spec (section 4.2): reinforce is the only caller of
touch and must increment the per-Memory reinforcement counter, as the
log-frequency test of the repository also requires. -/
def Memory.touch (m : Memory) (now : Nat) : Memory :=
  { m with last_accessed := now,
           reinforcement_count := m.reinforcement_count + 1 }

/-- engine.rs CueMapEngine state: the memory store and the inverted cue
index. -/
structure Engine where
  memories : List (String × Memory)
  cue_index : List (String × List String)
  deriving DecidableEq, Repr

def Engine.empty : Engine := { memories := [], cue_index := [] }

/-- One indexing step of add_memory / attach_cues: lowercase-trim the cue
and, when nonempty, append the id at the tail of its ordered set
(creating the entry when absent). -/
def index_cue (idx : List (String × List String)) (cue id : String) :
    List (String × List String) :=
  let cl := engine_norm cue
  if cl = "" then idx
  else aupdate idx cl [] (fun l => OrderedSet.add l id)

/-- engine.rs add_memory.  The freshly minted UUID v4 is determinized as
the id argument; the wall clock as the now argument. -/
def add_memory (e : Engine) (id content : String) (cues : List String)
    (metadata : List (String × String)) (now : Nat) : Engine :=
  { memories := aset e.memories id (Memory.new id content metadata cues now),
    cue_index := cues.foldl (fun idx c => index_cue idx c id) e.cue_index }

/-- engine.rs reinforce_memory: false without any state change when the id
is absent; otherwise touch the memory and, for each nonempty
lowercase-trimmed cue, enter the cue (creating an empty set when absent)
and move the id to the most-recent end when present. -/
def reinforce_memory (e : Engine) (id : String) (cues : List String)
    (now : Nat) : Bool × Engine :=
  match alookup e.memories id with
  | none => (false, e)
  | some _ =>
    (true,
      { memories := amodify e.memories id (fun m => m.touch now),
        cue_index := cues.foldl (fun idx c =>
          let cl := engine_norm c
          if cl = "" then idx
          else aupdate idx cl []
            (fun l => OrderedSet.move_to_front l id)) e.cue_index })

/-- engine.rs delete_memory: remove the memory and erase its id from the
ordered set of each of its (lowercase-trimmed) cues. -/
def delete_memory (e : Engine) (id : String) : Bool × Engine :=
  match alookup e.memories id with
  | none => (false, e)
  | some m =>
    (true,
      { memories := aremove e.memories id,
        cue_index := m.cues.foldl (fun idx c =>
          amodify idx (engine_norm c)
            (fun l => OrderedSet.remove l id)) e.cue_index })

/-- engine.rs attach_cues: false when the id is absent or every cue is
already carried (compared raw against memory.cues); otherwise extend
memory.cues with the new cues and index the id under each nonempty
lowercase-trimmed new cue. -/
def attach_cues (e : Engine) (id : String) (cues : List String) :
    Bool × Engine :=
  match alookup e.memories id with
  | none => (false, e)
  | some m =>
    let new_cues := cues.filter (fun c => c ∉ m.cues)
    if new_cues.isEmpty then (false, e)
    else
      (true,
        { memories := amodify e.memories id
            (fun m2 => { m2 with cues := m2.cues ++ new_cues }),
          cue_index := new_cues.foldl
            (fun idx c => index_cue idx c id) e.cue_index })

/-! ## The consolidated recall ranker (engine.rs) -/

/-- config.rs MAX_DRIVER_SCAN. -/
def MAX_DRIVER_SCAN : Nat := 10000

/-- engine.rs RecallResult.  The optional serde explain payload is pure
presentation assembled from the components below and is elided from the
model. -/
structure RecallResult where
  memory_id : String
  content : String
  score : ℝ
  intersection_count : Nat
  recency_score : ℝ
  reinforcement_score : ℝ
  metadata : List (String × String)

/-- A gathered cue of consolidated_search: the cue, its query weight and
its ordered set. -/
abbrev CueData := String × ℝ × List String

/-- A candidate of consolidated_search: memory id, positions_info
(position, list length, weight) triples, and accumulated total weight. -/
abbrev Candidate := String × List (Nat × Nat × ℝ) × ℝ

/-- consolidated_search step 3: probe every query cue's ordered set for
the candidate id; the driving cue (index cue_idx) is known to hold it at
reverse-rank pos_rev, each other hit cue contributes its own
reverse-rank. -/
def probe_all (cue_data : List CueData) (cue_idx pos_rev : Nat)
    (id : String) : List (Nat × Nat × ℝ) :=
  cue_data.enum.filterMap (fun jc =>
    if jc.1 = cue_idx then some (pos_rev, jc.2.2.2.length, jc.2.2.1)
    else
      match jc.2.2.2.findIdx? (fun y => y = id) with
      | some oldest_idx =>
        some (jc.2.2.2.length - 1 - oldest_idx, jc.2.2.2.length, jc.2.2.1)
      | none => none)

/-- The += accumulation of total_weight over a positions_info list. -/
def sum_weights (info : List (Nat × Nat × ℝ)) : ℝ :=
  info.foldl (fun a t => a + t.2.2) 0

/-- consolidated_search step 2 for one driving cue: walk its ordered set
from the most recent end up to MAX_DRIVER_SCAN entries, skipping memories
seen from earlier cues, and emit a candidate for each new one. -/
def scan_set (cue_data : List CueData) (cue_idx : Nat) (s : List String)
    (st : List String × List Candidate) :
    List String × List Candidate :=
  let scan_limit := min s.length MAX_DRIVER_SCAN
  let items := OrderedSet.get_recent s (some scan_limit)
  items.enum.foldl (fun st pr =>
    if pr.2 ∈ st.1 then st
    else
      let info := probe_all cue_data cue_idx pr.1 pr.2
      (pr.2 :: st.1, st.2 ++ [(pr.2, info, sum_weights info)])) st

/-- consolidated_search steps 2 to 4: union over all driving cues with a
shared seen set. -/
def gather_candidates (cue_data : List CueData) : List Candidate :=
  (cue_data.enum.foldl (fun st p => scan_set cue_data p.1 p.2.2.2 st)
    ([], [])).2

/-- engine.rs score_consolidated_candidates, one candidate: look the
memory up (absent candidates are silently dropped) and score it. -/
noncomputable def score_one (e : Engine) (c : Candidate) : Option RecallResult :=
  (alookup e.memories c.1).map (fun m =>
    let info := c.2.1
    let total_weight := c.2.2
    let match_count : ℝ := info.length
    let acc := info.foldl (fun (a : ℝ × ℝ × ℝ) t =>
      let pos : ℝ := t.1
      let list_len : ℝ := t.2.1
      let sigma := Real.sqrt list_len
      let ratio := pos / sigma
      let w_rec : ℝ := 20 / (ratio + 1)
      let w_freq : ℝ := 1 + 5 * (1 - 1 / (ratio + 1))
      let recency_component : ℝ :=
        1 / (pos + 1) + (if t.1 = 0 then 1 else 0)
      (a.1 + recency_component * t.2.2, a.2.1 + w_rec, a.2.2 + w_freq))
      (0, 0, 0)
    let recency_score := acc.1 / match_count
    let avg_w_rec := acc.2.1 / match_count
    let avg_w_freq := acc.2.2 / match_count
    let frequency_score : ℝ :=
      if 0 < m.reinforcement_count then
        Real.logb 10 m.reinforcement_count
      else 0
    let intersection_score := total_weight * 100
    { memory_id := c.1, content := m.content,
      score := intersection_score + recency_score * avg_w_rec
        + frequency_score * avg_w_freq,
      intersection_count := info.length,
      recency_score := recency_score,
      reinforcement_score := frequency_score,
      metadata := m.metadata })

/-- engine.rs score_consolidated_candidates. -/
noncomputable def score_consolidated_candidates (e : Engine)
    (candidates : List Candidate) : List RecallResult :=
  candidates.filterMap (score_one e)

/-- engine.rs consolidated_search. -/
noncomputable def consolidated_search (e : Engine) (query_cues : List (String × ℝ)) :
    List RecallResult :=
  if query_cues.isEmpty then []
  else
    let cue_data : List CueData := query_cues.filterMap (fun p =>
      (alookup e.cue_index p.1).map (fun s => (p.1, p.2, s)))
    if cue_data.isEmpty then []
    else score_consolidated_candidates e (gather_candidates cue_data)

/-- Descending insertion by score: one admissible refinement of the
unstable, tie-order-unspecified sort_unstable_by of recall_weighted. -/
noncomputable def insert_desc (r : RecallResult) :
    List RecallResult → List RecallResult
  | [] => [r]
  | x :: xs => if x.score < r.score then r :: x :: xs
               else x :: insert_desc r xs

/-- Global sort by score descending (engine.rs recall_weighted step). -/
noncomputable def sort_by_score_desc (l : List RecallResult) :
    List RecallResult :=
  l.foldr insert_desc []

/-- engine.rs recall_weighted.  Auto-reinforcement runs after scoring and
only mutates engine state, never the returned list, so the model returns
the results computed on the pre-call state. -/
noncomputable def recall_weighted (e : Engine)
    (query_cues : List (String × ℝ)) (limit : Nat)
    (min_intersection : Option Nat) : List RecallResult :=
  if query_cues.isEmpty then []
  else
    let cues := (query_cues.map (fun p => (engine_norm p.1, p.2))).filter
      (fun p => p.1 ≠ "" ∧ (alookup e.cue_index p.1).isSome)
    if cues.isEmpty then []
    else
      let results := consolidated_search e cues
      let results :=
        match min_intersection with
        | some mi => results.filter (fun r => mi ≤ r.intersection_count)
        | none => results
      (sort_by_score_desc results).take limit

/-- engine.rs recall / recall_with_min_intersection with default weight
1.0 per cue. -/
noncomputable def recall_default (e : Engine) (query_cues : List String)
    (limit : Nat) : List RecallResult :=
  if query_cues.isEmpty then []
  else recall_weighted e (query_cues.map (fun c => (c, 1))) limit none

/-! ## Persistence (persistence.rs) -/

/-- persistence.rs PersistedState. -/
structure PersistedState where
  memories : List (String × Memory)
  cue_index : List (String × List String)
  version : Nat
  saved_at : Nat
  deriving DecidableEq, Repr

/-- persistence.rs save_state: the memory map is copied verbatim, each
ordered set is flattened with get_recent_owned(None), i.e. most recent
first. -/
def save_state (e : Engine) (now : Nat) : PersistedState :=
  { memories := e.memories,
    cue_index := e.cue_index.map (fun p =>
      (p.1, OrderedSet.get_recent p.2 none)),
    version := 1,
    saved_at := now }

/-- persistence.rs load_state (from an existing snapshot): memories are
re-inserted verbatim, each ordered set is rebuilt by OrderedSet.add in
the order of the persisted list. -/
def load_state (st : PersistedState) : Engine :=
  { memories := st.memories,
    cue_index := st.cue_index.map (fun p =>
      (p.1, p.2.foldl (fun s id => OrderedSet.add s id) [])) }

/-! ## Alias expansion (projects.rs) -/

/-- Restricted model of the serde_json parse in expand_query_cues: it
recognizes alias content documents of the canonical shape
open-brace quote to quote colon quote TARGET quote close-brace (no
downweight field, so the 0.85 default applies); any other content is
unparsed and the hit contributes nothing, an under-approximation of the
full JSON parser that suffices for the claims. -/
def parse_alias_content (s : String) : Option (String × Option ℝ) :=
  let pre := ("\x7b\"to\":\"").data
  if pre.isPrefixOf s.data then
    let rest := s.data.drop pre.length
    let t := rest.takeWhile (fun c => c ≠ '"')
    let r := rest.dropWhile (fun c => c ≠ '"')
    if r = ("\"\x7d").data then some (String.mk t, none) else none
  else none

/-- projects.rs expand_query_cues over the alias registry engine: each
input cue is emitted with weight 1.0, then the registry is recalled with
the three cues type:alias, from:CUE, status:active (limit 8) and each hit
whose content parses contributes its target with the parsed downweight,
0.85 when absent.  Auto-reinforcement only mutates the registry, never
the returned list. -/
noncomputable def expand_query_cues (aliases : Engine)
    (cues : List String) : List (String × ℝ) :=
  cues.foldl (fun expanded cue =>
    let expanded := expanded ++ [(cue, 1)]
    let alias_query := ["type:alias", "from:" ++ cue, "status:active"]
    let hits := recall_default aliases alias_query 8
    hits.foldl (fun acc h =>
      match parse_alias_content h.content with
      | some (to_cue, dw) => acc ++ [(to_cue, dw.getD 0.85)]
      | none => acc) expanded) []

/-! ## Normalization (normalization.rs) -/

structure RewriteRule where
  name : String
  pattern : String
  replace : String
  deriving DecidableEq, Repr

structure NormalizationConfig where
  lowercase : Bool
  trim : Bool
  rewrite_rules : List RewriteRule
  deriving DecidableEq, Repr

structure NormalizeTrace where
  raw : String
  normalized : String
  applied_rules : List String
  deriving DecidableEq, Repr

/-- Split a char list at every occurrence of a separator (Rust
str::split). -/
def splitCh (sep : Char) : List Char → List (List Char)
  | [] => [[]]
  | c :: cs =>
    if c = sep then [] :: splitCh sep cs
    else
      match splitCh sep cs with
      | [] => [[c]]
      | p :: ps => (c :: p) :: ps

/-- Join char lists with a separator (Vec::join). -/
def joinCh (sep : Char) : List (List Char) → List Char
  | [] => []
  | [p] => p
  | p :: ps => p ++ sep :: joinCh sep ps

/-- Rust current.split(':').collect() on a string. -/
def split_colon (s : String) : List String :=
  (splitCh ':' s.data).map String.mk

/-- Rejoin colon-separated parts (new_parts.join(":")). -/
def join_colon (parts : List String) : String :=
  String.mk (joinCh ':' (parts.map String.data))

/-- The duplicated-prefix correction at the end of normalize_cue: when
the second and third colon-separated parts are equal and nonempty, drop
the second and record dedupe_prefix. -/
def dedupe_prefix_step (current : String) (applied : List String) :
    String × List String :=
  match split_colon current with
  | p0 :: p1 :: p2 :: rest =>
    if p1 = p2 ∧ p1 ≠ "" then
      (join_colon (p0 :: p2 :: rest), applied ++ ["dedupe_prefix"])
    else (current, applied)
  | _ => (current, applied)

/-- normalization.rs normalize_cue.  The regex crate is abstracted by the
two parameters re_matches and re_replace_all (pattern, then haystack /
pattern, replacement, haystack); a pattern that fails to compile is
modelled by re_matches returning false on it. -/
def normalize_cue (re_matches : String → String → Bool)
    (re_replace_all : String → String → String → String)
    (raw : String) (config : NormalizationConfig) :
    String × NormalizeTrace :=
  let current := raw
  let current := if config.trim then rtrim current else current
  let current := if config.lowercase then rlower current else current
  let st := config.rewrite_rules.foldl (fun (st : String × List String) rule =>
    if re_matches rule.pattern st.1 then
      let new_val := re_replace_all rule.pattern rule.replace st.1
      if new_val ≠ st.1 then (new_val, st.2 ++ [rule.name]) else st
    else st) (current, [])
  let fin := dedupe_prefix_step st.1 st.2
  (fin.1, { raw := raw, normalized := fin.1, applied_rules := fin.2 })

/-! ## Taxonomy validation (taxonomy.rs) -/

structure Taxonomy where
  allowed_keys : List String
  allowed_values : List (String × List String)
  allowed_value_prefixes : List (String × List String)
  deriving DecidableEq, Repr

/-- taxonomy.rs RejectedCue.  The detail field drops the decorative
single quotes of the source format strings. -/
structure RejectedCue where
  cue : String
  code : String
  detail : String
  deriving DecidableEq, Repr

structure ValidationReport where
  accepted : List String
  rejected : List RejectedCue
  deriving DecidableEq, Repr

/-- Rust cue.splitn(2, ':'): at most two parts, split at the first
colon. -/
def splitn2 (s : String) : List String :=
  let pre := s.data.takeWhile (fun c => c ≠ ':')
  match s.data.dropWhile (fun c => c ≠ ':') with
  | [] => [String.mk pre]
  | _ :: rest => [String.mk pre, String.mk rest]

/-- taxonomy.rs validate_cues, one cue: Err carries the rejection. -/
def validate_one (taxonomy : Taxonomy) (cue : String) :
    Sum Unit RejectedCue :=
  match splitn2 cue with
  | [key, value] =>
    if key = "" ∨ value = "" then
      Sum.inr ⟨cue, "bad_format", "Cue must be in key:value format"⟩
    else if ¬ taxonomy.allowed_keys.isEmpty ∧ key ∉ taxonomy.allowed_keys then
      Sum.inr ⟨cue, "unknown_key",
        "Key " ++ key ++ " is not in allowed_keys"⟩
    else
      let has_value_constraints :=
        (alookup taxonomy.allowed_values key).isSome
      let has_prefix_constraints :=
        (alookup taxonomy.allowed_value_prefixes key).isSome
      if has_value_constraints ∨ has_prefix_constraints then
        let exact_ok : Bool :=
          match alookup taxonomy.allowed_values key with
          | some allowed_vals => value ∈ allowed_vals
          | none => false
        let prefix_ok : Bool :=
          match alookup taxonomy.allowed_value_prefixes key with
          | some allowed => allowed.any (fun p => p.data.isPrefixOf value.data)
          | none => false
        if exact_ok ∨ prefix_ok then Sum.inl ()
        else
          Sum.inr ⟨cue, "unknown_value",
            "Value " ++ value ++ " is not allowed for key " ++ key⟩
      else Sum.inl ()
  | _ => Sum.inr ⟨cue, "bad_format", "Cue must be in key:value format"⟩

/-- taxonomy.rs validate_cues. -/
def validate_cues (cues : List String) (taxonomy : Taxonomy) :
    ValidationReport :=
  cues.foldl (fun rep cue =>
    match validate_one taxonomy cue with
    | Sum.inl _ => { rep with accepted := rep.accepted ++ [cue] }
    | Sum.inr r => { rep with rejected := rep.rejected ++ [r] })
    { accepted := [], rejected := [] }

/-! ## Grounding selector (grounding.rs) -/

/-- grounding.rs SelectedItem.  The why field (a formatted sentence
rendering rank, score and match count) is pure presentation and is elided
from the model. -/
structure SelectedItem where
  memory_id : String
  content : String
  score : ℝ
  intersection_count : Nat
  recency_component : ℝ
  reinforcement_component : ℝ
  source : String
  timestamp : String
  estimated_tokens : Nat

/-- grounding.rs ExcludedItem.  The reason field (a formatted sentence
rendering the token deficit) is pure presentation and is elided from the
model. -/
structure ExcludedItem where
  memory_id : String
  score : ℝ

/-- grounding.rs estimate_tokens: ceil(byte length / 4), computed in f64
in the source and exact for every realistic length. -/
def estimate_tokens (content : String) : Nat :=
  (content.length + 3) / 4

/-- One iteration of the selection loop of grounding.rs select_memories:
the state is (selected, excluded_top, current_tokens). -/
def select_step (token_budget : Nat)
    (st : List SelectedItem × List ExcludedItem × Nat)
    (r : RecallResult) : List SelectedItem × List ExcludedItem × Nat :=
  let tokens := estimate_tokens r.content
  if st.2.2 + tokens ≤ token_budget then
    (st.1 ++ [{
        memory_id := r.memory_id, content := r.content,
        score := r.score,
        intersection_count := r.intersection_count,
        recency_component := r.recency_score,
        reinforcement_component := r.reinforcement_score,
        source := (alookup r.metadata "source").getD "unknown",
        timestamp :=
          (alookup r.metadata "timestamp").getD "2025-01-01T00:00:00Z",
        estimated_tokens := tokens }],
      st.2.1, st.2.2 + tokens)
  else
    (st.1,
      (if st.2.1.length < 5 then st.2.1 ++ [⟨r.memory_id, r.score⟩]
       else st.2.1),
      st.2.2)

/-- grounding.rs select_memories: greedy selection in rank order under
the token budget, with up to five tracked exclusions.  The formatted
context block (third component of the source return) is presentation and
elided. -/
def select_memories (results : List RecallResult) (token_budget : Nat) :
    List SelectedItem × List ExcludedItem :=
  let fin := results.foldl (select_step token_budget) ([], [], 0)
  (fin.1, fin.2.1)

/-! ## Operation traces over the engine (for the index invariant) -/

/-- One mutating engine call, determinized: add carries the minted UUID
and the clock, reinforce carries the clock. -/
inductive Op where
  | add (id content : String) (cues : List String)
      (metadata : List (String × String)) (now : Nat)
  | reinforce (id : String) (cues : List String) (now : Nat)
  | attach (id : String) (cues : List String)
  | del (id : String)
  deriving DecidableEq, Repr

/-- Apply one operation (result booleans are discarded). -/
def applyOp (e : Engine) : Op → Engine
  | Op.add id content cues metadata now =>
      add_memory e id content cues metadata now
  | Op.reinforce id cues now => (reinforce_memory e id cues now).2
  | Op.attach id cues => (attach_cues e id cues).2
  | Op.del id => (delete_memory e id).2

/-- Run a trace from a state. -/
def runOps (e : Engine) (ops : List Op) : Engine :=
  ops.foldl applyOp e

/-- A trace is valid from a state when every add mints an id that is
fresh for the memory store at that point — the UUID v4 contract of
add_memory. -/
def validTrace (e : Engine) : List Op → Bool
  | [] => true
  | op :: ops =>
    (match op with
     | Op.add id _ _ _ _ => (alookup e.memories id).isNone
     | _ => true) && validTrace (applyOp e op) ops

/-! ## Derived predicates and concrete instances used by the claims -/

/-- The nonempty lowercase-trimmed forms of a cue list: exactly the index
keys touched by the cue loops of engine.rs. -/
def listed_norms (cues : List String) : List String :=
  (cues.map engine_norm).filter (fun c => c ≠ "")

/-- Acceptance predicate written from the claim wording (spec section
4.4): a cue k:v split at the first colon with nonempty halves, whose key
passes the allowed_keys check and whose value matches an exact value or
prefix whenever any constraint entry for the key exists.  Stated
independently of validate_cues for the refinement comparison. -/
def accept_spec (t : Taxonomy) (cue : String) : Bool :=
  match splitn2 cue with
  | [k, v] =>
    (!(decide (k = ""))) && (!(decide (v = ""))) &&
    (t.allowed_keys.isEmpty || decide (k ∈ t.allowed_keys)) &&
    (if (alookup t.allowed_values k).isSome
        || (alookup t.allowed_value_prefixes k).isSome then
      (match alookup t.allowed_values k with
        | some vs => decide (v ∈ vs)
        | none => false)
      ||
      (match alookup t.allowed_value_prefixes k with
        | some ps => ps.any (fun p => p.data.isPrefixOf v.data)
        | none => false)
     else true)
  | _ => false

/-- Rejection code written from the claim wording: bad_format, then
unknown_key, then unknown_value, in that order. -/
def reject_code_spec (t : Taxonomy) (cue : String) : String :=
  match splitn2 cue with
  | [k, v] =>
    if k = "" ∨ v = "" then "bad_format"
    else if ¬ t.allowed_keys.isEmpty ∧ k ∉ t.allowed_keys then "unknown_key"
    else "unknown_value"
  | _ => "bad_format"

/-- Companion of reject_code_spec: the detail sentence that validate_one
attaches to the matching rejection. -/
def detail_spec (t : Taxonomy) (cue : String) : String :=
  match splitn2 cue with
  | [k, v] =>
    if k = "" ∨ v = "" then "Cue must be in key:value format"
    else if ¬ t.allowed_keys.isEmpty ∧ k ∉ t.allowed_keys then
      "Key " ++ k ++ " is not in allowed_keys"
    else "Value " ++ v ++ " is not allowed for key " ++ k
  | _ => "Cue must be in key:value format"

/-- Does the string have the duplicated-prefix shape that the final
normalization step rewrites (second and third colon parts equal and
nonempty)? -/
def has_dup_prefix (s : String) : Bool :=
  match split_colon s with
  | _ :: p1 :: p2 :: _ => p1 = p2 ∧ p1 ≠ ""
  | _ => false

/-- A regex matcher that never matches: instantiates the abstract regex
parameters where no rewrite rule exists. -/
def no_re_match : String → String → Bool := fun _ _ => false

/-- A replacement function that keeps the haystack: instantiates the
abstract regex parameters where no rewrite rule exists. -/
def no_re_replace : String → String → String → String := fun _ _ s => s

/-- Two-memory engine sharing one cue, m1 added before m2 (round-trip
instance). -/
def rtEngine : Engine :=
  add_memory (add_memory Engine.empty "m1" "one" ["c"] [] 0)
    "m2" "two" ["c"] [] 1

/-- Engine holding one memory without cues (reinforce frame instance). -/
def c6Engine : Engine := add_memory Engine.empty "m" "x" [] [] 0

/-- One-memory one-cue engine (recall instances). -/
def e0 : Engine := add_memory Engine.empty "m1" "hello" ["c"] [] 0

/-- Canonical alias content document pointing at cue x:y, no downweight
field. -/
def aliasContent : String := "\x7b\"to\":\"x:y\"\x7d"

/-- Alias registry holding exactly one alias, status proposed (never
activated). -/
def aliasReg : Engine :=
  add_memory Engine.empty "a1" aliasContent
    ["type:alias", "from:pay", "status:proposed"] [] 0

/-- A recall result with an eight-character content (grounding
instance). -/
noncomputable def r9 : RecallResult :=
  { memory_id := "m", content := "abcdefgh", score := 0,
    intersection_count := 1, recency_score := 0,
    reinforcement_score := 0, metadata := [("source", "s")] }

/-- A mixed trace exercising all four mutating operations. -/
def c3ops : List Op :=
  [Op.add "m1" "x" ["A", " b ", ""] [] 0,
   Op.attach "m1" ["C"],
   Op.reinforce "m1" ["a", "zz"] 1,
   Op.add "m2" "y" ["a"] [] 2,
   Op.del "m2"]

/-- Strong well-formedness invariant of the engine state tying the
memory store and the cue index together: unique keys on both maps,
duplicate-free ordered sets, every indexed id backed by a memory whose
normalized cue list contains the indexing cue, and every memory indexed
under each of its nonempty normalized cues. -/
def EngineInv (e : Engine) : Prop :=
  (e.memories.map Prod.fst).Nodup ∧
  (e.cue_index.map Prod.fst).Nodup ∧
  (∀ c l, alookup e.cue_index c = some l → l.Nodup) ∧
  (∀ c l, alookup e.cue_index c = some l → ∀ id ∈ l,
    ∃ m, alookup e.memories id = some m ∧ c ∈ m.cues.map engine_norm) ∧
  (∀ k m, alookup e.memories k = some m → ∀ cu ∈ m.cues,
    engine_norm cu ≠ "" →
    ∃ l, alookup e.cue_index (engine_norm cu) = some l ∧ k ∈ l)

/-- Invariant of the seen-set/candidate accumulator threaded through
consolidated_search's gathering folds: candidate ids are duplicate-free
and all recorded in the seen set, every candidate has at least one
positions_info entry (the driving cue's own probe), and its accumulated
total weight is the sum over its positions_info. -/
def CandInv (st : List String × List Candidate) : Prop :=
  ((st.2.map (fun c => c.1)).Nodup) ∧
  (∀ x ∈ st.2, x.1 ∈ st.1) ∧
  (∀ x ∈ st.2, x.2.1 ≠ [] ∧ x.2.2 = sum_weights x.2.1)

/-! # Lemma toolkit: association lists -/

theorem alookup_nil {α : Type} (k : String) :
    alookup ([] : List (String × α)) k = none := rfl

theorem alookup_cons {α : Type} (p : String × α) (m : List (String × α))
    (k : String) :
    alookup (p :: m) k = if p.1 = k then some p.2 else alookup m k := by
  by_cases h : p.1 = k <;> simp [alookup, List.find?_cons, h]

theorem alookup_append {α : Type} (a b : List (String × α)) (k : String) :
    alookup (a ++ b) k = (alookup a k).or (alookup b k) := by
  induction a with
  | nil => simp [alookup]
  | cons p a ih =>
    by_cases h : p.1 = k <;> simp [alookup_cons, h, ih]

theorem alookup_amodify_self {α : Type} (m : List (String × α))
    (k : String) (f : α → α) :
    alookup (amodify m k f) k = (alookup m k).map f := by
  induction m with
  | nil => rfl
  | cons p m ih =>
    by_cases h : p.1 = k
    · simp [amodify, alookup_cons, h]
    · simp [amodify, alookup_cons, h]
      simpa [amodify] using ih

theorem alookup_amodify_ne {α : Type} (m : List (String × α))
    (k k' : String) (f : α → α) (h : k' ≠ k) :
    alookup (amodify m k f) k' = alookup m k' := by
  induction m with
  | nil => rfl
  | cons p m ih =>
    simp only [amodify, List.map_cons] at *
    rw [alookup_cons, alookup_cons]
    by_cases hp : p.1 = k
    · rw [if_pos hp, if_neg (show ((k, f p.2) : String × α).1 ≠ k' from
        Ne.symm h), if_neg (hp ▸ Ne.symm h), ih]
    · rw [if_neg hp]
      by_cases hp' : p.1 = k'
      · rw [if_pos hp', if_pos hp']
      · rw [if_neg hp', if_neg hp', ih]

theorem isSome_find_eq {α : Type} (m : List (String × α)) (k : String) :
    (m.find? (fun p => p.1 = k)).isSome = (alookup m k).isSome := by
  simp [alookup]

theorem aupdate_eq {α : Type} (m : List (String × α)) (k : String) (d : α)
    (f : α → α) :
    aupdate m k d f =
      if (alookup m k).isSome then amodify m k f else m ++ [(k, f d)] := by
  rw [aupdate, isSome_find_eq]
  rfl

theorem alookup_aupdate_self {α : Type} (m : List (String × α))
    (k : String) (d : α) (f : α → α) :
    alookup (aupdate m k d f) k = some (f ((alookup m k).getD d)) := by
  rw [aupdate_eq]
  cases h : alookup m k with
  | none => simp [h, alookup_append, alookup_cons]
  | some v => simp [h, alookup_amodify_self]

theorem alookup_aupdate_ne {α : Type} (m : List (String × α))
    (k k' : String) (d : α) (f : α → α) (h : k' ≠ k) :
    alookup (aupdate m k d f) k' = alookup m k' := by
  rw [aupdate_eq]
  cases hm : alookup m k with
  | none =>
    rw [if_neg (by simp [hm])]
    rw [alookup_append]
    simp [alookup_cons, alookup_nil, Ne.symm h]
  | some v =>
    rw [if_pos (by simp [hm])]
    exact alookup_amodify_ne m k k' f h

theorem aset_eq_aupdate {α : Type} (m : List (String × α)) (k : String)
    (v : α) : aset m k v = aupdate m k v (fun _ => v) := rfl

theorem alookup_aset_self {α : Type} (m : List (String × α)) (k : String)
    (v : α) : alookup (aset m k v) k = some v := by
  rw [aset_eq_aupdate, alookup_aupdate_self]

theorem alookup_aset_ne {α : Type} (m : List (String × α)) (k k' : String)
    (v : α) (h : k' ≠ k) : alookup (aset m k v) k' = alookup m k' := by
  rw [aset_eq_aupdate, alookup_aupdate_ne m k k' v _ h]

theorem alookup_aremove_self {α : Type} (m : List (String × α))
    (k : String) : alookup (aremove m k) k = none := by
  induction m with
  | nil => rfl
  | cons p m ih =>
    by_cases h : p.1 = k <;> simp [aremove, alookup_cons, h] at * <;>
      simpa [aremove] using ih

theorem alookup_aremove_ne {α : Type} (m : List (String × α))
    (k k' : String) (h : k' ≠ k) :
    alookup (aremove m k) k' = alookup m k' := by
  induction m with
  | nil => rfl
  | cons p m ih =>
    simp only [aremove] at *
    rw [List.filter_cons]
    by_cases hp : p.1 = k
    · rw [if_neg (by simp [hp])]
      rw [alookup_cons, if_neg (hp ▸ Ne.symm h), ih]
    · rw [if_pos (by simp [hp])]
      rw [alookup_cons, alookup_cons, ih]

/-! # Lemma toolkit: ordered sets -/

theorem OrderedSet.mem_add (l : List String) (x y : String) :
    y ∈ OrderedSet.add l x ↔ y = x ∨ y ∈ l := by
  simp only [OrderedSet.add, List.mem_append, List.mem_filter,
    List.mem_singleton]
  constructor
  · rintro (⟨h, _⟩ | h)
    · exact Or.inr h
    · exact Or.inl h
  · rintro (h | h)
    · exact Or.inr h
    · by_cases hx : y = x
      · exact Or.inr hx
      · exact Or.inl ⟨h, by simpa using hx⟩

theorem OrderedSet.mem_move_to_front (l : List String) (x y : String) :
    y ∈ OrderedSet.move_to_front l x ↔ y ∈ l := by
  unfold OrderedSet.move_to_front
  by_cases hx : x ∈ l
  · simp only [hx, if_true, List.mem_append, List.mem_filter,
      List.mem_singleton]
    constructor
    · rintro (⟨h, _⟩ | h)
      · exact h
      · exact h ▸ hx
    · intro h
      by_cases hy : y = x
      · exact Or.inr hy
      · exact Or.inl ⟨h, by simpa using hy⟩
  · simp [hx]

theorem OrderedSet.mem_remove (l : List String) (x y : String) :
    y ∈ OrderedSet.remove l x ↔ y ∈ l ∧ y ≠ x := by
  simp [OrderedSet.remove, List.mem_filter]

theorem filter_ne_self_of_not_mem (l : List String) (x : String)
    (h : x ∉ l) : l.filter (fun y => y ≠ x) = l := by
  apply List.filter_eq_self.2
  intro a ha
  simp only [ne_eq, decide_eq_true_eq]
  exact fun hax => h (hax ▸ ha)

theorem OrderedSet.add_idem (l : List String) (x : String) :
    OrderedSet.add (OrderedSet.add l x) x = OrderedSet.add l x := by
  unfold OrderedSet.add
  rw [List.filter_append]
  simp [List.filter_filter]

theorem OrderedSet.move_to_front_idem (l : List String) (x : String) :
    OrderedSet.move_to_front (OrderedSet.move_to_front l x) x
      = OrderedSet.move_to_front l x := by
  unfold OrderedSet.move_to_front
  by_cases hx : x ∈ l
  · simp only [hx, if_pos, List.mem_append, List.mem_singleton]
    rw [if_pos (by simp)]
    rw [List.filter_append]
    simp [List.filter_filter]
  · simp [hx]

theorem OrderedSet.remove_idem (l : List String) (x : String) :
    OrderedSet.remove (OrderedSet.remove l x) x = OrderedSet.remove l x := by
  simp [OrderedSet.remove, List.filter_filter]

theorem OrderedSet.nodup_add (l : List String) (x : String)
    (h : l.Nodup) : (OrderedSet.add l x).Nodup := by
  unfold OrderedSet.add
  refine List.Nodup.append (h.filter _) (List.nodup_singleton x) ?_
  intro a ha hb
  simp only [List.mem_filter, ne_eq, decide_eq_true_eq] at ha
  simp only [List.mem_singleton] at hb
  exact ha.2 hb

theorem OrderedSet.nodup_move_to_front (l : List String) (x : String)
    (h : l.Nodup) : (OrderedSet.move_to_front l x).Nodup := by
  unfold OrderedSet.move_to_front
  by_cases hx : x ∈ l
  · rw [if_pos hx]
    have h2 := OrderedSet.nodup_add l x h
    unfold OrderedSet.add at h2
    exact h2
  · rw [if_neg hx]
    exact h

theorem OrderedSet.nodup_remove (l : List String) (x : String)
    (h : l.Nodup) : (OrderedSet.remove l x).Nodup := h.filter _

/-! # Lemma toolkit: cue-loop folds of the engine operations -/

theorem listed_norms_cons (c : String) (cues : List String) :
    listed_norms (c :: cues) =
      if engine_norm c = "" then listed_norms cues
      else engine_norm c :: listed_norms cues := by
  by_cases h : engine_norm c = "" <;> simp [listed_norms, h]

/-- Lookup after the guarded aupdate fold shared by add_memory,
attach_cues and reinforce_memory: every nonempty normalized cue key gets
the operation applied once to its previous set (empty when absent), any
other key is untouched. -/
theorem fold_aupdate_lookup (OP : List String → List String)
    (hidem : ∀ l, OP (OP l) = OP l) (cues : List String)
    (idx : List (String × List String)) (c : String) :
    alookup (cues.foldl (fun idx cu =>
        if engine_norm cu = "" then idx
        else aupdate idx (engine_norm cu) [] OP) idx) c
      = if c ∈ listed_norms cues then
          some (OP ((alookup idx c).getD []))
        else alookup idx c := by
  induction cues generalizing idx with
  | nil => simp [listed_norms]
  | cons cu cues ih =>
    rw [List.foldl_cons, listed_norms_cons]
    by_cases h0 : engine_norm cu = ""
    · rw [if_pos h0, if_pos h0, ih]
    · rw [if_neg h0, if_neg h0, ih]
      by_cases hc : c ∈ listed_norms cues
      · rw [if_pos hc, if_pos (List.mem_cons_of_mem _ hc)]
        by_cases hcu : c = engine_norm cu
        · rw [← hcu, alookup_aupdate_self]
          simp [hidem]
        · rw [alookup_aupdate_ne _ _ _ _ _ hcu]
      · rw [if_neg hc]
        by_cases hcu : c = engine_norm cu
        · rw [← hcu, alookup_aupdate_self,
            if_pos (by exact List.mem_cons_self c _)]
        · rw [alookup_aupdate_ne _ _ _ _ _ hcu,
            if_neg (by
              intro hmem
              rcases List.mem_cons.1 hmem with h1 | h1
              · exact hcu h1
              · exact hc h1)]

/-- Lookup after the amodify fold of delete_memory: every key that is the
normalized form of one of the cues has the operation mapped over its
binding, other keys are untouched; no binding is created. -/
theorem fold_amodify_lookup (OP : List String → List String)
    (hidem : ∀ l, OP (OP l) = OP l) (cues : List String)
    (idx : List (String × List String)) (c : String) :
    alookup (cues.foldl (fun idx cu =>
        amodify idx (engine_norm cu) OP) idx) c
      = if c ∈ cues.map engine_norm then (alookup idx c).map OP
        else alookup idx c := by
  induction cues generalizing idx with
  | nil => simp
  | cons cu cues ih =>
    rw [List.foldl_cons, ih]
    by_cases hc : c ∈ cues.map engine_norm
    · rw [if_pos hc,
        if_pos (by
          simp only [List.map_cons, List.mem_cons]
          exact Or.inr hc)]
      by_cases hcu : c = engine_norm cu
      · rw [← hcu, alookup_amodify_self]
        cases alookup idx c <;> simp [hidem]
      · rw [alookup_amodify_ne _ _ _ _ hcu]
    · rw [if_neg hc]
      by_cases hcu : c = engine_norm cu
      · rw [← hcu, alookup_amodify_self,
          if_pos (by
            simp only [List.map_cons, List.mem_cons]
            exact Or.inl hcu)]
      · rw [alookup_amodify_ne _ _ _ _ hcu,
          if_neg (by
            simp only [List.map_cons, List.mem_cons]
            rintro (h1 | h1)
            · exact hcu h1
            · exact hc h1)]

/-- The cue loop of add_memory and attach_cues is the guarded aupdate
fold with the ordered-set append. -/
theorem index_cue_fold_eq (cues : List String) (id : String)
    (idx : List (String × List String)) :
    cues.foldl (fun idx c => index_cue idx c id) idx
      = cues.foldl (fun idx cu =>
          if engine_norm cu = "" then idx
          else aupdate idx (engine_norm cu) []
            (fun l => OrderedSet.add l id)) idx := by
  rfl

/-! # C1: snapshot round trip -/

/-- C1: the claim fails on the code.  save_state flattens each ordered
set most-recent-first (get_recent_owned(None)) while load_state rebuilds
by appending in list order, so a reload reverses every cue's order: for
the reachable engine rtEngine whose cue c holds [m1, m2] (m2 most
recent), the reloaded ordered set is [m2, m1], not the same order.  The
memory map itself survives unchanged. -/
theorem c1_roundtrip_reverses_order :
    alookup rtEngine.cue_index "c" = some ["m1", "m2"] ∧
    alookup (load_state (save_state rtEngine 7)).cue_index "c"
      = some ["m2", "m1"] ∧
    (load_state (save_state rtEngine 7)).cue_index ≠ rtEngine.cue_index ∧
    (load_state (save_state rtEngine 7)).memories = rtEngine.memories := by
  decide

/-! # C6: reinforce frame effect -/

/-- C6: the claim fails on the code.  reinforce_memory enters every
listed nonempty normalized cue with entry(...).or_insert_with(OrderedSet
new), so a listed cue absent from the index gains a fresh (empty)
entry: on c6Engine (one memory m, empty cue index), reinforcing with cue
c creates the binding c, while the claim asserts the rest of the cue
index is left unchanged and no new entry is created. -/
theorem c6_counterexample :
    alookup c6Engine.cue_index "c" = none ∧
    alookup ((reinforce_memory c6Engine "m" ["c"] 5).2).cue_index "c"
      = some [] ∧
    (reinforce_memory c6Engine "m" ["c"] 5).2.cue_index
      ≠ c6Engine.cue_index := by
  decide

/-- C6 (amended): reinforce_memory returns false iff the id is absent
from the memory store, in which case the state is unchanged; when the id
is present it touches the memory (and only that memory), and the cue
index binds each listed nonempty lowercase-trimmed cue to its previous
ordered set (empty when the entry did not exist) with the id moved to
the most-recent end when the set already contains it; every other cue
binding is unchanged. -/
theorem c6_reinforce_frame (e : Engine) (id : String) (cues : List String)
    (now : Nat) :
    ((reinforce_memory e id cues now).1 = false ↔
        alookup e.memories id = none) ∧
    (alookup e.memories id = none →
        (reinforce_memory e id cues now).2 = e) ∧
    (∀ m, alookup e.memories id = some m →
      alookup ((reinforce_memory e id cues now).2).memories id
          = some (m.touch now) ∧
      (∀ k, k ≠ id →
        alookup ((reinforce_memory e id cues now).2).memories k
          = alookup e.memories k) ∧
      (∀ c, alookup ((reinforce_memory e id cues now).2).cue_index c =
        if c ∈ listed_norms cues then
          some (OrderedSet.move_to_front
            ((alookup e.cue_index c).getD []) id)
        else alookup e.cue_index c)) := by
  refine ⟨?_, ?_, ?_⟩
  · unfold reinforce_memory
    cases h : alookup e.memories id <;> simp [h]
  · intro h
    unfold reinforce_memory
    rw [h]
  · intro m hm
    unfold reinforce_memory
    rw [hm]
    refine ⟨?_, ?_, ?_⟩
    · simp only
      rw [alookup_amodify_self, hm]
      rfl
    · intro k hk
      simp only
      exact alookup_amodify_ne _ _ _ _ hk
    · intro c
      simp only
      exact fold_aupdate_lookup _
        (fun l => OrderedSet.move_to_front_idem l id) cues e.cue_index c

/-- C6 witness: the amended frame theorem applied to the concrete engine
c6Engine at the present id m with listed cue c. -/
theorem c6_witness :
    alookup c6Engine.memories "m" = some (Memory.new "m" "x" [] [] 0) ∧
    alookup ((reinforce_memory c6Engine "m" ["c"] 5).2).cue_index "c"
      = some (OrderedSet.move_to_front
          ((alookup c6Engine.cue_index "c").getD []) "m") := by
  constructor
  · decide
  · have h := ((c6_reinforce_frame c6Engine "m" ["c"] 5).2.2
      (Memory.new "m" "x" [] [] 0) (by decide)).2.2 "c"
    rw [h, if_pos (by decide)]

/-! # C8: taxonomy validation -/

/-- Acceptance of one cue by validate_cues coincides with the claim
predicate; otherwise the rejection carries the cue, the claim code and
the claim detail. -/
theorem validate_one_cases (t : Taxonomy) (cue : String) :
    (accept_spec t cue = true ∧ validate_one t cue = Sum.inl ()) ∨
    (accept_spec t cue = false ∧ validate_one t cue
        = Sum.inr ⟨cue, reject_code_spec t cue, detail_spec t cue⟩) := by
  rcases h : splitn2 cue with _ | ⟨k, _ | ⟨v, _ | ⟨w, rest⟩⟩⟩
  · right
    exact ⟨by simp [accept_spec, h],
      by simp [validate_one, reject_code_spec, detail_spec, h]⟩
  · right
    exact ⟨by simp [accept_spec, h],
      by simp [validate_one, reject_code_spec, detail_spec, h]⟩
  · by_cases h1 : k = "" ∨ v = ""
    · right
      constructor
      · rcases h1 with h1 | h1 <;> simp [accept_spec, h, h1]
      · have hval : validate_one t cue
            = Sum.inr ⟨cue, "bad_format",
                "Cue must be in key:value format"⟩ := by
          simp only [validate_one, h]
          rw [if_pos h1]
        have hcode : reject_code_spec t cue = "bad_format" := by
          simp only [reject_code_spec, h]
          rw [if_pos h1]
        have hdet : detail_spec t cue = "Cue must be in key:value format" := by
          simp only [detail_spec, h]
          rw [if_pos h1]
        rw [hval, hcode, hdet]
    · push_neg at h1
      have h1' : ¬ (k = "" ∨ v = "") := by tauto
      by_cases h2 : ¬ t.allowed_keys.isEmpty = true ∧ k ∉ t.allowed_keys
      · right
        constructor
        · simp only [accept_spec, h]
          rw [show t.allowed_keys.isEmpty = false from
              Bool.not_eq_true _ ▸ (by simpa using h2.1),
            decide_eq_false h2.2]
          simp
        · have hval : validate_one t cue
              = Sum.inr ⟨cue, "unknown_key",
                  "Key " ++ k ++ " is not in allowed_keys"⟩ := by
            simp only [validate_one, h]
            rw [if_neg h1', if_pos h2]
          have hcode : reject_code_spec t cue = "unknown_key" := by
            simp only [reject_code_spec, h]
            rw [if_neg h1', if_pos h2]
          have hdet : detail_spec t cue
              = "Key " ++ k ++ " is not in allowed_keys" := by
            simp only [detail_spec, h]
            rw [if_neg h1', if_pos h2]
          rw [hval, hcode, hdet]
      · have h2' : t.allowed_keys.isEmpty = true ∨ k ∈ t.allowed_keys := by
          tauto
        by_cases h3 : (alookup t.allowed_values k).isSome = true
            ∨ (alookup t.allowed_value_prefixes k).isSome = true
        · by_cases h4 : (match alookup t.allowed_values k with
              | some vs => decide (v ∈ vs)
              | none => false) = true
            ∨ (match alookup t.allowed_value_prefixes k with
              | some ps => ps.any (fun p => p.data.isPrefixOf v.data)
              | none => false) = true
          · left
            constructor
            · simp only [accept_spec, h]
              simp only [Bool.and_eq_true, Bool.not_eq_true',
                decide_eq_false_iff_not, Bool.or_eq_true,
                decide_eq_true_eq]
              refine ⟨⟨⟨h1.1, h1.2⟩, by simpa using h2'⟩, ?_⟩
              rw [if_pos (by simpa using h3)]
              simpa using h4
            · simp only [validate_one, h]
              rw [if_neg h1', if_neg h2, if_pos h3, if_pos h4]
          · right
            have hx : (match alookup t.allowed_values k with
                | some vs => decide (v ∈ vs)
                | none => false) = false := by
              cases hz : (match alookup t.allowed_values k with
                  | some vs => decide (v ∈ vs)
                  | none => false)
              · rfl
              · exact absurd (Or.inl hz) h4
            have hy : (match alookup t.allowed_value_prefixes k with
                | some ps => ps.any (fun p => p.data.isPrefixOf v.data)
                | none => false) = false := by
              cases hz : (match alookup t.allowed_value_prefixes k with
                  | some ps => ps.any (fun p => p.data.isPrefixOf v.data)
                  | none => false)
              · rfl
              · exact absurd (Or.inr hz) h4
            constructor
            · simp only [accept_spec, h]
              rw [if_pos (by simpa using h3), hx, hy]
              simp
            · have hval : validate_one t cue
                  = Sum.inr ⟨cue, "unknown_value",
                      "Value " ++ v ++ " is not allowed for key " ++ k⟩ := by
                simp only [validate_one, h]
                rw [if_neg h1', if_neg h2, if_pos h3, if_neg h4]
              have hcode : reject_code_spec t cue = "unknown_value" := by
                simp only [reject_code_spec, h]
                rw [if_neg h1', if_neg h2]
              have hdet : detail_spec t cue
                  = "Value " ++ v ++ " is not allowed for key " ++ k := by
                simp only [detail_spec, h]
                rw [if_neg h1', if_neg h2]
              rw [hval, hcode, hdet]
        · left
          constructor
          · simp only [accept_spec, h]
            simp only [Bool.and_eq_true, Bool.not_eq_true',
              decide_eq_false_iff_not, Bool.or_eq_true,
              decide_eq_true_eq]
            refine ⟨⟨⟨h1.1, h1.2⟩, by simpa using h2'⟩, ?_⟩
            rw [if_neg (by simpa using h3)]
          · simp only [validate_one, h]
            rw [if_neg h1', if_neg h2, if_neg h3]
  · right
    exact ⟨by simp [accept_spec, h],
      by simp [validate_one, reject_code_spec, detail_spec, h]⟩

/-- validate_cues as a fold, with the accumulator generalized. -/
theorem validate_cues_fold (t : Taxonomy) (cues : List String)
    (acc : ValidationReport) :
    (cues.foldl (fun rep cue =>
      match validate_one t cue with
      | Sum.inl _ => { rep with accepted := rep.accepted ++ [cue] }
      | Sum.inr r => { rep with rejected := rep.rejected ++ [r] }) acc).accepted
      = acc.accepted ++ cues.filter (fun c => accept_spec t c) ∧
    ((cues.foldl (fun rep cue =>
      match validate_one t cue with
      | Sum.inl _ => { rep with accepted := rep.accepted ++ [cue] }
      | Sum.inr r => { rep with rejected := rep.rejected ++ [r] }) acc).rejected.map
        (fun r => (r.cue, r.code)))
      = acc.rejected.map (fun r => (r.cue, r.code))
        ++ (cues.filter (fun c => !(accept_spec t c))).map
            (fun c => (c, reject_code_spec t c)) := by
  induction cues generalizing acc with
  | nil => simp
  | cons cu cues ih =>
    rw [List.foldl_cons]
    rcases validate_one_cases t cu with ⟨ha, hv⟩ | ⟨ha, hv⟩
    · rw [hv]
      rw [List.filter_cons, List.filter_cons]
      rw [if_pos (by simp [ha]), if_neg (by simp [ha])]
      rcases ih { acc with accepted := acc.accepted ++ [cu] } with ⟨ih1, ih2⟩
      refine ⟨?_, ?_⟩
      · rw [ih1]
        simp
      · rw [ih2]
    · rw [hv]
      rw [List.filter_cons, List.filter_cons]
      rw [if_neg (by simp [ha]), if_pos (by simp [ha])]
      rcases ih { acc with rejected := acc.rejected
          ++ [⟨cu, reject_code_spec t cu, detail_spec t cu⟩] }
        with ⟨ih1, ih2⟩
      refine ⟨?_, ?_⟩
      · rw [ih1]
      · rw [ih2]
        simp

/-- C8: validate_cues accepts exactly the cues satisfying the claim
predicate (k nonempty, v nonempty split at the first colon, key allowed
when allowed_keys is nonempty, value matching an exact or prefix rule
whenever a constraint entry for the key exists), and rejects every other
cue with the claim code bad_format / unknown_key / unknown_value
respectively. -/
theorem c8_taxonomy_validation (cues : List String) (t : Taxonomy) :
    (validate_cues cues t).accepted
      = cues.filter (fun c => accept_spec t c) ∧
    ((validate_cues cues t).rejected.map (fun r => (r.cue, r.code)))
      = (cues.filter (fun c => !(accept_spec t c))).map
          (fun c => (c, reject_code_spec t c)) := by
  have h := validate_cues_fold t cues { accepted := [], rejected := [] }
  rcases h with ⟨h1, h2⟩
  constructor
  · rw [validate_cues, h1]
    simp
  · rw [validate_cues, h2]
    simp

/-! # C9: grounding budget -/

/-- Fold invariant of select_memories: every selected item carries its
own token estimate, the running counter is their sum, and it never
exceeds the budget. -/
theorem select_memories_fold (token_budget : Nat)
    (results : List RecallResult)
    (st : List SelectedItem × List ExcludedItem × Nat)
    (h1 : ∀ it ∈ st.1, it.estimated_tokens = estimate_tokens it.content)
    (h2 : (st.1.map (fun it => it.estimated_tokens)).sum = st.2.2)
    (h3 : st.2.2 ≤ token_budget) :
    (∀ it ∈ (results.foldl (select_step token_budget) st).1,
        it.estimated_tokens = estimate_tokens it.content) ∧
    ((results.foldl (select_step token_budget) st).1.map
        (fun it => it.estimated_tokens)).sum
      = (results.foldl (select_step token_budget) st).2.2 ∧
    (results.foldl (select_step token_budget) st).2.2 ≤ token_budget := by
  induction results generalizing st with
  | nil => exact ⟨h1, h2, h3⟩
  | cons r results ih =>
    rw [List.foldl_cons]
    unfold select_step
    by_cases hfit : st.2.2 + estimate_tokens r.content ≤ token_budget
    · rw [if_pos hfit]
      refine ih _ ?_ ?_ ?_
      · intro it hit
        rcases List.mem_append.1 hit with hit | hit
        · exact h1 it hit
        · rcases List.mem_singleton.1 hit with rfl
          rfl
      · simp [h2]
      · exact hfit
    · rw [if_neg hfit]
      exact ih _ h1 h2 h3

/-- C9: every item selected by the grounding selector carries the
estimate ceil(content length / 4), and the selected estimates sum to at
most the token budget. -/
theorem c9_grounding_budget (results : List RecallResult)
    (token_budget : Nat) :
    (∀ it ∈ (select_memories results token_budget).1,
        it.estimated_tokens = (it.content.length + 3) / 4) ∧
    ((select_memories results token_budget).1.map
        (fun it => it.estimated_tokens)).sum ≤ token_budget := by
  have h := select_memories_fold token_budget results ([], [], 0)
    (by intro it hit; exact absurd hit (by simp))
    (by simp) (by simp)
  rcases h with ⟨ha, hb, hc⟩
  refine ⟨?_, ?_⟩
  · intro it hit
    exact ha it hit
  · rw [show (select_memories results token_budget).1
      = (results.foldl (select_step token_budget) ([], [], 0)).1 from rfl]
    rw [hb]
    exact hc

/-! # C7: normalization idempotence machinery -/

theorem char_toNat_ofNat_valid (m : Nat) (h1 : 97 ≤ m) (h2 : m ≤ 122) :
    (Char.ofNat m).toNat = m := by
  have hv : m.isValidChar := Or.inl (by omega)
  simp only [Char.ofNat, hv, dif_pos, Char.ofNatAux, Char.toNat]
  exact BitVec.toNat_ofNatLt _ _

theorem rlowerChar_idem (c : Char) :
    rlowerChar (rlowerChar c) = rlowerChar c := by
  unfold rlowerChar
  by_cases h : 65 ≤ c.toNat ∧ c.toNat ≤ 90
  · rw [if_pos h]
    have ht : (Char.ofNat (c.toNat + 32)).toNat = c.toNat + 32 :=
      char_toNat_ofNat_valid _ (by omega) (by omega)
    rw [if_neg (by rw [ht]; omega)]
  · rw [if_neg h, if_neg h]

theorem char_ne_of_toNat_ne {c d : Char} (h : c.toNat ≠ d.toNat) :
    ¬ c = d := fun hc => h (by rw [hc])

theorem wsChar_eq_false_of_toNat (c : Char) (h32 : c.toNat ≠ 32)
    (h9 : c.toNat ≠ 9) (h10 : c.toNat ≠ 10) (h13 : c.toNat ≠ 13) :
    wsChar c = false := by
  unfold wsChar
  simp only [Bool.or_eq_false_iff, decide_eq_false_iff_not]
  exact ⟨⟨⟨char_ne_of_toNat_ne h32, char_ne_of_toNat_ne h9⟩,
    char_ne_of_toNat_ne h10⟩, char_ne_of_toNat_ne h13⟩

theorem wsChar_rlowerChar (c : Char) : wsChar (rlowerChar c) = wsChar c := by
  unfold rlowerChar
  by_cases h : 65 ≤ c.toNat ∧ c.toNat ≤ 90
  · rw [if_pos h]
    have ht : (Char.ofNat (c.toNat + 32)).toNat = c.toNat + 32 :=
      char_toNat_ofNat_valid _ (by omega) (by omega)
    rw [wsChar_eq_false_of_toNat _ (by omega) (by omega) (by omega)
        (by omega),
      wsChar_eq_false_of_toNat _ (by omega) (by omega) (by omega)
        (by omega)]
  · rw [if_neg h]

theorem map_rlower_idem (l : List Char) :
    (l.map rlowerChar).map rlowerChar = l.map rlowerChar := by
  rw [List.map_map]
  exact List.map_congr_left (fun c _ => rlowerChar_idem c)

theorem trimL_eq_rdrop (l : List Char) :
    trimL l = List.rdropWhile wsChar (l.dropWhile wsChar) := rfl

theorem dropWhile_trimL (l : List Char) :
    (trimL l).dropWhile wsChar = trimL l := by
  rw [trimL_eq_rdrop]
  have h1 : List.rdropWhile wsChar (l.dropWhile wsChar)
      <+: l.dropWhile wsChar := List.rdropWhile_prefix _ _
  rw [List.dropWhile_eq_self_iff]
  intro hl
  have hlen : 0 < (l.dropWhile wsChar).length :=
    lt_of_lt_of_le hl h1.length_le
  have h3 := h1.getElem (n := 0) hl
  simp only [List.get_eq_getElem]
  rw [h3]
  have h4 := List.dropWhile_get_zero_not wsChar l hlen
  simpa using h4

theorem rdrop_trimL (l : List Char) :
    List.rdropWhile wsChar (trimL l) = trimL l := by
  rw [trimL_eq_rdrop]
  exact List.rdropWhile_idempotent _ _

theorem trimL_idem (l : List Char) : trimL (trimL l) = trimL l := by
  rw [show trimL (trimL l)
      = List.rdropWhile wsChar ((trimL l).dropWhile wsChar) from rfl]
  rw [dropWhile_trimL, rdrop_trimL]

theorem trimL_eq_self_of (l : List Char)
    (h1 : l.dropWhile wsChar = l)
    (h2 : l.reverse.dropWhile wsChar = l.reverse) : trimL l = l := by
  unfold trimL
  rw [h1, h2, List.reverse_reverse]

theorem of_trimL_eq_self (l : List Char) (h : trimL l = l) :
    l.dropWhile wsChar = l ∧ l.reverse.dropWhile wsChar = l.reverse := by
  constructor
  · conv_lhs => rw [← h]
    conv_rhs => rw [← h]
    exact dropWhile_trimL l
  · have h2 := rdrop_trimL l
    rw [h] at h2
    unfold List.rdropWhile at h2
    have := congrArg List.reverse h2
    rwa [List.reverse_reverse] at this

theorem trimL_map_rlower (l : List Char) :
    trimL (l.map rlowerChar) = (trimL l).map rlowerChar := by
  have hws : (wsChar ∘ rlowerChar) = wsChar := funext wsChar_rlowerChar
  unfold trimL
  rw [List.dropWhile_map, hws, ← List.map_reverse, List.dropWhile_map,
    hws, ← List.map_reverse]

theorem splitCh_ne_nil (sep : Char) (l : List Char) :
    splitCh sep l ≠ [] := by
  cases l with
  | nil => simp [splitCh]
  | cons c cs =>
    unfold splitCh
    by_cases h : c = sep
    · simp [h]
    · rw [if_neg h]
      cases h2 : splitCh sep cs <;> simp

theorem joinCh_cons_of_ne_nil (sep : Char) (p : List Char)
    (ps : List (List Char)) (h : ps ≠ []) :
    joinCh sep (p :: ps) = p ++ sep :: joinCh sep ps := by
  cases ps with
  | nil => contradiction
  | cons q qs => rfl

theorem joinCh_splitCh (sep : Char) (l : List Char) :
    joinCh sep (splitCh sep l) = l := by
  induction l with
  | nil => rfl
  | cons c cs ih =>
    unfold splitCh
    by_cases h : c = sep
    · rw [if_pos h]
      cases h2 : splitCh sep cs with
      | nil => exact absurd h2 (splitCh_ne_nil sep cs)
      | cons p ps =>
        rw [joinCh_cons_of_ne_nil _ _ _ (by simp), List.nil_append, ← h2,
          ih, h]
    · rw [if_neg h]
      cases h2 : splitCh sep cs with
      | nil => exact absurd h2 (splitCh_ne_nil sep cs)
      | cons p ps =>
        rw [h2] at ih
        cases ps with
        | nil =>
          show c :: p = c :: cs
          rw [show joinCh sep [p] = p from rfl] at ih
          rw [ih]
        | cons q qs =>
          rw [joinCh_cons_of_ne_nil _ _ _ (by simp), List.cons_append,
            ← joinCh_cons_of_ne_nil sep p (q :: qs) (by simp), ih]

theorem joinCh_append_single (sep : Char) (as : List (List Char))
    (b : List Char) (h : as ≠ []) :
    joinCh sep (as ++ [b]) = joinCh sep as ++ sep :: b := by
  induction as with
  | nil => contradiction
  | cons a as ih =>
    cases as with
    | nil => rfl
    | cons a2 as2 =>
      rw [List.cons_append,
        joinCh_cons_of_ne_nil _ _ _ (by simp),
        joinCh_cons_of_ne_nil _ _ _ (by simp),
        ih (by simp)]
      simp

theorem reverse_joinCh (sep : Char) (ps : List (List Char)) :
    (joinCh sep ps).reverse
      = joinCh sep ((ps.map List.reverse).reverse) := by
  induction ps with
  | nil => rfl
  | cons p ps ih =>
    cases ps with
    | nil => simp [joinCh]
    | cons q qs =>
      rw [joinCh_cons_of_ne_nil _ _ _ (by simp)]
      rw [List.reverse_append, List.reverse_cons, List.append_assoc, ih]
      rw [show ((p :: q :: qs).map List.reverse).reverse
          = ((q :: qs).map List.reverse).reverse ++ [p.reverse] by simp]
      rw [joinCh_append_single _ _ _ (by simp)]
      simp

theorem dropWhile_joinCh_of_head (q : List Char) (qs : List (List Char))
    (hq : ∀ c t, q = c :: t → wsChar c = false) :
    (joinCh ':' (q :: qs)).dropWhile wsChar = joinCh ':' (q :: qs) := by
  cases q with
  | nil =>
    cases qs with
    | nil => rfl
    | cons r rs =>
      rw [joinCh_cons_of_ne_nil _ _ _ (by simp), List.nil_append]
      rw [List.dropWhile_cons_of_neg (by simp [wsChar])]
  | cons c t =>
    have hc := hq c t rfl
    cases qs with
    | nil =>
      show ((c :: t) : List Char).dropWhile wsChar = c :: t
      rw [List.dropWhile_cons_of_neg (by simp [hc])]
    | cons r rs =>
      rw [joinCh_cons_of_ne_nil _ _ _ (by simp), List.cons_append,
        List.dropWhile_cons_of_neg (by simp [hc])]

theorem head_not_ws_of_dropWhile (q : List Char) (qs : List (List Char))
    (h : (joinCh ':' (q :: qs)).dropWhile wsChar = joinCh ':' (q :: qs)) :
    ∀ c t, q = c :: t → wsChar c = false := by
  rintro c t rfl
  by_contra hw
  have hw' : wsChar c = true := by
    cases hz : wsChar c
    · exact absurd hz hw
    · rfl
  have hX : ∃ X, joinCh ':' ((c :: t) :: qs) = c :: X := by
    cases qs with
    | nil => exact ⟨t, rfl⟩
    | cons r rs =>
      refine ⟨t ++ ':' :: joinCh ':' (r :: rs), ?_⟩
      rw [joinCh_cons_of_ne_nil _ _ _ (by simp), List.cons_append]
  rcases hX with ⟨X, hX⟩
  rw [hX, List.dropWhile_cons_of_pos (by simp [hw'])] at h
  have hlen := congrArg List.length h
  have hle := (List.dropWhile_suffix (l := X) wsChar).length_le
  simp only [List.length_cons] at hlen
  omega

theorem string_data_mk (l : List Char) : (String.mk l).data = l := rfl

theorem mem_splitCh (sep : Char) (l : List Char) :
    ∀ p ∈ splitCh sep l, ∀ c ∈ p, c ∈ l := by
  induction l with
  | nil =>
    intro p hp c hc
    simp [splitCh] at hp
    rw [hp] at hc
    exact absurd hc (by simp)
  | cons a as ih =>
    intro p hp c hc
    unfold splitCh at hp
    by_cases h : a = sep
    · rw [if_pos h] at hp
      rcases List.mem_cons.1 hp with rfl | hp
      · exact absurd hc (by simp)
      · exact List.mem_cons_of_mem a (ih p hp c hc)
    · rw [if_neg h] at hp
      cases h2 : splitCh sep as with
      | nil => exact absurd h2 (splitCh_ne_nil sep as)
      | cons q qs =>
        rw [h2] at hp
        rcases List.mem_cons.1 hp with rfl | hp
        · rcases List.mem_cons.1 hc with rfl | hc
          · exact List.mem_cons_self _ _
          · exact List.mem_cons_of_mem a
              (ih q (h2 ▸ List.mem_cons_self q qs) c hc)
        · exact List.mem_cons_of_mem a
            (ih p (h2 ▸ List.mem_cons_of_mem q hp) c hc)

theorem mem_joinCh (sep : Char) (ps : List (List Char)) :
    ∀ c ∈ joinCh sep ps, c = sep ∨ ∃ p ∈ ps, c ∈ p := by
  induction ps with
  | nil =>
    intro c hc
    exact absurd hc (by simp [joinCh])
  | cons p ps ih =>
    intro c hc
    cases ps with
    | nil =>
      exact Or.inr ⟨p, List.mem_cons_self p [], hc⟩
    | cons q qs =>
      rw [joinCh_cons_of_ne_nil _ _ _ (by simp)] at hc
      rcases List.mem_append.1 hc with hc | hc
      · exact Or.inr ⟨p, List.mem_cons_self _ _, hc⟩
      · rcases List.mem_cons.1 hc with rfl | hc
        · exact Or.inl rfl
        · rcases ih c hc with h | ⟨r, hr, hcr⟩
          · exact Or.inl h
          · exact Or.inr ⟨r, List.mem_cons_of_mem p hr, hcr⟩

theorem map_fixed_mem {f : Char → Char} {l : List Char}
    (h : l.map f = l) : ∀ c ∈ l, f c = c := by
  induction l with
  | nil => intro c hc; exact absurd hc (by simp)
  | cons a as ih =>
    intro c hc
    rw [List.map_cons] at h
    injection h with h1 h2
    rcases List.mem_cons.1 hc with rfl | hc
    · exact h1
    · exact ih h2 c hc

theorem map_eq_self_of_mem {f : Char → Char} {l : List Char}
    (h : ∀ c ∈ l, f c = c) : l.map f = l := by
  rw [List.map_congr_left h]
  simp

/-- The duplicated-prefix rewrite preserves trim-fixedness at the
char-list level. -/
theorem dedupeL_trim_fixed (zl l0 l1 l2 : List Char)
    (rest : List (List Char))
    (hsplit : splitCh ':' zl = l0 :: l1 :: l2 :: rest)
    (htrim : trimL zl = zl) :
    trimL (joinCh ':' (l0 :: l2 :: rest))
      = joinCh ':' (l0 :: l2 :: rest) := by
  have hz : zl = joinCh ':' (l0 :: l1 :: l2 :: rest) := by
    rw [← hsplit, joinCh_splitCh]
  rcases of_trimL_eq_self zl htrim with ⟨hdz, hrz⟩
  apply trimL_eq_self_of
  · -- front
    apply dropWhile_joinCh_of_head
    apply head_not_ws_of_dropWhile l0 (l1 :: l2 :: rest)
    rw [← hz]
    exact hdz
  · -- back
    have hrev : (joinCh ':' (l0 :: l2 :: rest)).reverse
        = joinCh ':' (((l0 :: l2 :: rest).map List.reverse).reverse) :=
      reverse_joinCh ':' _
    have hrevz : zl.reverse
        = joinCh ':' (((l0 :: l1 :: l2 :: rest).map List.reverse).reverse) := by
      rw [hz]
      exact reverse_joinCh ':' _
    cases hLrev : ((l2 :: rest).map List.reverse).reverse with
    | nil =>
      exfalso
      have : ((l2 :: rest).map List.reverse).reverse ≠ [] := by simp
      exact this hLrev
    | cons lst rst =>
      have hout : ((l0 :: l2 :: rest).map List.reverse).reverse
          = lst :: (rst ++ [l0.reverse]) := by
        rw [show ((l0 :: l2 :: rest).map List.reverse)
            = l0.reverse :: ((l2 :: rest).map List.reverse) by simp]
        rw [List.reverse_cons, hLrev]
        simp
      have hzrev : ((l0 :: l1 :: l2 :: rest).map List.reverse).reverse
          = lst :: (rst ++ [l1.reverse] ++ [l0.reverse]) := by
        rw [show ((l0 :: l1 :: l2 :: rest).map List.reverse)
            = l0.reverse :: l1.reverse :: ((l2 :: rest).map List.reverse)
            by simp]
        rw [List.reverse_cons, List.reverse_cons, hLrev]
        simp
      rw [hrev, hout]
      apply dropWhile_joinCh_of_head
      apply head_not_ws_of_dropWhile lst (rst ++ [l1.reverse] ++ [l0.reverse])
      rw [← hzrev, ← hrevz]
      exact hrz

/-- The duplicated-prefix rewrite preserves lowercase-fixedness at the
char-list level. -/
theorem dedupeL_lower_fixed (zl l0 l1 l2 : List Char)
    (rest : List (List Char))
    (hsplit : splitCh ':' zl = l0 :: l1 :: l2 :: rest)
    (hlow : zl.map rlowerChar = zl) :
    (joinCh ':' (l0 :: l2 :: rest)).map rlowerChar
      = joinCh ':' (l0 :: l2 :: rest) := by
  apply map_eq_self_of_mem
  intro c hc
  rcases mem_joinCh ':' _ c hc with rfl | ⟨p, hp, hcp⟩
  · rfl
  · have hpz : p ∈ splitCh ':' zl := by
      rw [hsplit]
      rcases List.mem_cons.1 hp with rfl | hp
      · exact List.mem_cons_self _ _
      · exact List.mem_cons_of_mem _
          (List.mem_cons_of_mem _ hp)
    exact map_fixed_mem hlow c (mem_splitCh ':' zl p hpz c hcp)

theorem split_colon_data (z : String) :
    (split_colon z).map String.data = splitCh ':' z.data := by
  unfold split_colon
  rw [List.map_map]
  rw [List.map_congr_left
    (fun a _ => (rfl : (String.data ∘ String.mk) a = a))]
  exact List.map_id _

/-- dedupe_prefix_step preserves trim-fixedness. -/
theorem dedupe_step_trim_fixed (z : String) (a : List String)
    (htrim : trimL z.data = z.data) :
    trimL (dedupe_prefix_step z a).1.data
        = (dedupe_prefix_step z a).1.data := by
  unfold dedupe_prefix_step
  split
  · next p0 p1 p2 rest hsp =>
    split
    · next hcond =>
      simp only
      have hsp' : splitCh ':' z.data
          = p0.data :: p1.data :: p2.data :: (rest.map String.data) := by
        rw [← split_colon_data, hsp]
        rfl
      have hjoin : (join_colon (p0 :: p2 :: rest)).data
          = joinCh ':' (p0.data :: p2.data :: (rest.map String.data)) := by
        unfold join_colon
        rfl
      rw [hjoin]
      exact dedupeL_trim_fixed z.data p0.data p1.data p2.data
        (rest.map String.data) hsp' htrim
    · next => exact htrim
  · next => exact htrim

/-- dedupe_prefix_step preserves lowercase-fixedness. -/
theorem dedupe_step_lower_fixed (z : String) (a : List String)
    (hlow : z.data.map rlowerChar = z.data) :
    (dedupe_prefix_step z a).1.data.map rlowerChar
        = (dedupe_prefix_step z a).1.data := by
  unfold dedupe_prefix_step
  split
  · next p0 p1 p2 rest hsp =>
    split
    · next hcond =>
      simp only
      have hsp' : splitCh ':' z.data
          = p0.data :: p1.data :: p2.data :: (rest.map String.data) := by
        rw [← split_colon_data, hsp]
        rfl
      have hjoin : (join_colon (p0 :: p2 :: rest)).data
          = joinCh ':' (p0.data :: p2.data :: (rest.map String.data)) := by
        unfold join_colon
        rfl
      rw [hjoin]
      exact dedupeL_lower_fixed z.data p0.data p1.data p2.data
        (rest.map String.data) hsp' hlow
    · next => exact hlow
  · next => exact hlow

/-- dedupe_prefix_step is the identity when the duplicated-prefix shape
is absent. -/
theorem dedupe_step_noop (s : String) (a : List String)
    (h : has_dup_prefix s = false) : dedupe_prefix_step s a = (s, a) := by
  unfold dedupe_prefix_step
  unfold has_dup_prefix at h
  split
  · next p0 p1 p2 rest hsp =>
    rw [hsp] at h
    simp only [decide_eq_false_iff_not] at h
    rw [if_neg h]
  · next => rfl

theorem string_mk_data (s : String) : String.mk s.data = s := rfl

/-- C7: the claim fails on the code.  With the default rule-free config,
normalizing a:b:b:b once yields a:b:b (one duplicated-prefix collapse),
and normalizing the result again yields a:b, so applying normalization
twice differs from applying it once. -/
theorem c7_counterexample :
    (normalize_cue no_re_match no_re_replace
        ((normalize_cue no_re_match no_re_replace "a:b:b:b"
          ⟨true, true, []⟩).1) ⟨true, true, []⟩).1
      ≠ (normalize_cue no_re_match no_re_replace "a:b:b:b"
          ⟨true, true, []⟩).1 := by decide

/-- C7 (amended): for every rule-free normalization config (arbitrary
trim and lowercase flags, arbitrary regex semantics) and every input
whose once-normalized form does not have the duplicated-prefix shape,
applying normalization twice produces the same result as once. -/
theorem trimL_rtrim (s : String) : trimL (rtrim s).data = (rtrim s).data := by
  unfold rtrim
  rw [string_data_mk]
  exact trimL_idem s.data

theorem trimL_rlower_of (s : String) (hs : trimL s.data = s.data) :
    trimL (rlower s).data = (rlower s).data := by
  unfold rlower
  rw [string_data_mk, trimL_map_rlower, hs]

theorem map_rlower_rlower (s : String) :
    (rlower s).data.map rlowerChar = (rlower s).data := by
  unfold rlower
  rw [string_data_mk]
  exact map_rlower_idem s.data

theorem rtrim_of_fixed (s : String) (h : trimL s.data = s.data) :
    rtrim s = s := by
  unfold rtrim
  rw [h, string_mk_data]

theorem rlower_of_fixed (s : String) (h : s.data.map rlowerChar = s.data) :
    rlower s = s := by
  unfold rlower
  rw [h, string_mk_data]

theorem c7_normalize_idem
    (re_matches : String → String → Bool)
    (re_replace_all : String → String → String → String)
    (config : NormalizationConfig) (raw : String)
    (hrules : config.rewrite_rules = [])
    (hnd : has_dup_prefix
        (normalize_cue re_matches re_replace_all raw config).1 = false) :
    (normalize_cue re_matches re_replace_all
        ((normalize_cue re_matches re_replace_all raw config).1) config).1
      = (normalize_cue re_matches re_replace_all raw config).1 := by
  obtain ⟨lc, tr, rules⟩ := config
  simp only at hrules
  subst hrules
  cases tr <;> cases lc
  · -- no trim, no lowercase
    have hnorm : ∀ s : String,
        (normalize_cue re_matches re_replace_all s ⟨false, false, []⟩).1
          = (dedupe_prefix_step s []).1 := fun s => rfl
    rw [hnorm raw] at hnd ⊢
    rw [hnorm ((dedupe_prefix_step raw []).1)]
    rw [dedupe_step_noop _ [] hnd]
  · -- lowercase only
    have hnorm : ∀ s : String,
        (normalize_cue re_matches re_replace_all s ⟨true, false, []⟩).1
          = (dedupe_prefix_step (rlower s) []).1 := fun s => rfl
    rw [hnorm raw] at hnd ⊢
    rw [hnorm ((dedupe_prefix_step (rlower raw) []).1)]
    rw [rlower_of_fixed _
      (dedupe_step_lower_fixed _ [] (map_rlower_rlower raw))]
    rw [dedupe_step_noop _ [] hnd]
  · -- trim only
    have hnorm : ∀ s : String,
        (normalize_cue re_matches re_replace_all s ⟨false, true, []⟩).1
          = (dedupe_prefix_step (rtrim s) []).1 := fun s => rfl
    rw [hnorm raw] at hnd ⊢
    rw [hnorm ((dedupe_prefix_step (rtrim raw) []).1)]
    rw [rtrim_of_fixed _
      (dedupe_step_trim_fixed _ [] (trimL_rtrim raw))]
    rw [dedupe_step_noop _ [] hnd]
  · -- trim and lowercase
    have hnorm : ∀ s : String,
        (normalize_cue re_matches re_replace_all s ⟨true, true, []⟩).1
          = (dedupe_prefix_step (rlower (rtrim s)) []).1 := fun s => rfl
    rw [hnorm raw] at hnd ⊢
    rw [hnorm ((dedupe_prefix_step (rlower (rtrim raw)) []).1)]
    rw [rtrim_of_fixed _
      (dedupe_step_trim_fixed _ []
        (trimL_rlower_of _ (trimL_rtrim raw)))]
    rw [rlower_of_fixed _
      (dedupe_step_lower_fixed _ [] (map_rlower_rlower (rtrim raw)))]
    rw [dedupe_step_noop _ [] hnd]

/-- C7 witness: the amended idempotence theorem applied to the default
rule-free config and an input whose normalized form has no duplicated
prefix. -/
theorem c7_witness :
    (⟨true, true, []⟩ : NormalizationConfig).rewrite_rules = [] ∧
    has_dup_prefix (normalize_cue no_re_match no_re_replace "  A:B "
        ⟨true, true, []⟩).1 = false ∧
    (normalize_cue no_re_match no_re_replace
        ((normalize_cue no_re_match no_re_replace "  A:B "
          ⟨true, true, []⟩).1) ⟨true, true, []⟩).1
      = (normalize_cue no_re_match no_re_replace "  A:B "
          ⟨true, true, []⟩).1 :=
  ⟨rfl, by decide,
    c7_normalize_idem no_re_match no_re_replace ⟨true, true, []⟩
      "  A:B " rfl (by decide)⟩

/-- C9 witness: the budget theorem applied to a one-result list (eight
characters, two estimated tokens) under budget two. -/
theorem c9_witness :
    ((select_memories [r9] 2).1.map
        (fun it => it.estimated_tokens)).sum ≤ 2 :=
  (c9_grounding_budget [r9] 2).2

/-! # C3: index consistency invariant -/

theorem alookup_eq_none_iff {α : Type} (m : List (String × α))
    (k : String) : alookup m k = none ↔ k ∉ m.map Prod.fst := by
  induction m with
  | nil => simp [alookup]
  | cons p m ih =>
    rw [alookup_cons]
    by_cases h : p.1 = k
    · simp [h]
    · simp [h, ih, Ne.symm h]

theorem alookup_of_mem {α : Type} {m : List (String × α)}
    {p : String × α} (hn : (m.map Prod.fst).Nodup) (hp : p ∈ m) :
    alookup m p.1 = some p.2 := by
  induction m with
  | nil => exact absurd hp (by simp)
  | cons q m ih =>
    rw [alookup_cons]
    rcases List.mem_cons.1 hp with rfl | hp
    · rw [if_pos rfl]
    · have hq : q.1 ≠ p.1 := by
        intro hq
        rw [List.map_cons, List.nodup_cons] at hn
        exact hn.1 (hq ▸ List.mem_map_of_mem Prod.fst hp)
      rw [if_neg hq]
      exact ih (by
        rw [List.map_cons, List.nodup_cons] at hn
        exact hn.2) hp

theorem aset_of_none {α : Type} (m : List (String × α)) (k : String)
    (v : α) (h : alookup m k = none) : aset m k v = m ++ [(k, v)] := by
  rw [aset_eq_aupdate, aupdate_eq, if_neg (by simp [h])]

theorem alookup_append_single_self {α : Type} (m : List (String × α))
    (k : String) (v : α) (h : alookup m k = none) :
    alookup (m ++ [(k, v)]) k = some v := by
  rw [alookup_append, h]
  simp [alookup_cons]

theorem alookup_append_single_ne {α : Type} (m : List (String × α))
    (k k' : String) (v : α) (h : k' ≠ k) :
    alookup (m ++ [(k, v)]) k' = alookup m k' := by
  rw [alookup_append]
  cases hm : alookup m k' with
  | none => simp [alookup_cons, alookup_nil, Ne.symm h]
  | some w => rfl

theorem amodify_map_fst {α : Type} (m : List (String × α)) (k : String)
    (f : α → α) : (amodify m k f).map Prod.fst = m.map Prod.fst := by
  unfold amodify
  rw [List.map_map]
  apply List.map_congr_left
  intro p _
  by_cases h : p.1 = k <;> simp [h]

theorem aupdate_map_fst {α : Type} (m : List (String × α)) (k : String)
    (d : α) (f : α → α) :
    (aupdate m k d f).map Prod.fst = m.map Prod.fst ∨
    ((aupdate m k d f).map Prod.fst = m.map Prod.fst ++ [k] ∧
      alookup m k = none) := by
  rw [aupdate_eq]
  cases h : alookup m k with
  | none =>
    right
    rw [if_neg (by simp [h])]
    simp [h]
  | some v =>
    left
    rw [if_pos (by simp [h])]
    exact amodify_map_fst m k f

theorem aupdate_keys_nodup {α : Type} (m : List (String × α)) (k : String)
    (d : α) (f : α → α) (h : (m.map Prod.fst).Nodup) :
    ((aupdate m k d f).map Prod.fst).Nodup := by
  rcases aupdate_map_fst m k d f with heq | ⟨heq, hnone⟩
  · rw [heq]; exact h
  · rw [heq]
    refine List.Nodup.append h (List.nodup_singleton k) ?_
    intro a ha hb
    rcases List.mem_singleton.1 hb with rfl
    exact ((alookup_eq_none_iff m a).1 hnone) ha

theorem aremove_keys_nodup {α : Type} (m : List (String × α)) (k : String)
    (h : (m.map Prod.fst).Nodup) :
    ((aremove m k).map Prod.fst).Nodup := by
  unfold aremove
  have hsub : ((m.filter (fun p => p.1 ≠ k)).map Prod.fst).Sublist
      (m.map Prod.fst) := (List.filter_sublist m).map Prod.fst
  exact h.sublist hsub

theorem fold_aupdate_keys_nodup (OP : List String → List String)
    (cues : List String) (idx : List (String × List String))
    (h : (idx.map Prod.fst).Nodup) :
    (((cues.foldl (fun idx cu =>
        if engine_norm cu = "" then idx
        else aupdate idx (engine_norm cu) [] OP) idx)).map Prod.fst).Nodup := by
  induction cues generalizing idx with
  | nil => exact h
  | cons cu cues ih =>
    rw [List.foldl_cons]
    by_cases h0 : engine_norm cu = ""
    · rw [if_pos h0]
      exact ih idx h
    · rw [if_neg h0]
      exact ih _ (aupdate_keys_nodup _ _ _ _ h)

theorem fold_amodify_map_fst (OP : List String → List String)
    (cues : List String) (idx : List (String × List String)) :
    ((cues.foldl (fun idx cu =>
        amodify idx (engine_norm cu) OP) idx)).map Prod.fst
      = idx.map Prod.fst := by
  induction cues generalizing idx with
  | nil => rfl
  | cons cu cues ih =>
    rw [List.foldl_cons, ih, amodify_map_fst]

theorem mem_listed_norms {cues : List String} {c : String} :
    c ∈ listed_norms cues ↔ c ∈ cues.map engine_norm ∧ c ≠ "" := by
  simp [listed_norms, List.mem_filter]

/-- add_memory with a fresh id preserves the engine invariant. -/
theorem add_memory_inv (e : Engine) (id content : String)
    (cues : List String) (md : List (String × String)) (now : Nat)
    (hinv : EngineInv e) (hid : alookup e.memories id = none) :
    EngineInv (add_memory e id content cues md now) := by
  obtain ⟨h1, h2, h3, h4, h5⟩ := hinv
  have hmemsEq : (add_memory e id content cues md now).memories
      = e.memories ++ [(id, Memory.new id content md cues now)] := by
    unfold add_memory
    simp only
    rw [aset_of_none _ _ _ hid]
  have hmem_self : alookup (add_memory e id content cues md now).memories id
      = some (Memory.new id content md cues now) := by
    rw [hmemsEq]
    exact alookup_append_single_self _ _ _ hid
  have hmem_ne : ∀ k, k ≠ id →
      alookup (add_memory e id content cues md now).memories k
        = alookup e.memories k := by
    intro k hk
    rw [hmemsEq]
    exact alookup_append_single_ne _ _ _ _ hk
  have hidx : ∀ c, alookup (add_memory e id content cues md now).cue_index c
      = if c ∈ listed_norms cues then
          some (OrderedSet.add ((alookup e.cue_index c).getD []) id)
        else alookup e.cue_index c := by
    intro c
    unfold add_memory
    simp only
    rw [index_cue_fold_eq]
    exact fold_aupdate_lookup _ (fun l => OrderedSet.add_idem l id)
      cues e.cue_index c
  refine ⟨?_, ?_, ?_, ?_, ?_⟩
  · rw [hmemsEq, List.map_append]
    refine List.Nodup.append h1 (by simp) ?_
    intro a ha hb
    simp only [List.map_cons, List.map_nil, List.mem_singleton] at hb
    rw [hb] at ha
    exact ((alookup_eq_none_iff e.memories id).1 hid) ha
  · unfold add_memory
    simp only
    rw [index_cue_fold_eq]
    exact fold_aupdate_keys_nodup _ cues _ h2
  · intro c l hl
    rw [hidx c] at hl
    by_cases hc : c ∈ listed_norms cues
    · rw [if_pos hc] at hl
      injection hl with hl
      rw [← hl]
      apply OrderedSet.nodup_add
      cases h0 : alookup e.cue_index c with
      | none => simp
      | some l0 => simpa [h0] using h3 c l0 h0
    · rw [if_neg hc] at hl
      exact h3 c l hl
  · intro c l hl id' hid'
    rw [hidx c] at hl
    by_cases hc : c ∈ listed_norms cues
    · rw [if_pos hc] at hl
      injection hl with hl
      rw [← hl] at hid'
      rcases (OrderedSet.mem_add _ _ _).1 hid' with heq | hmem
      · refine ⟨Memory.new id content md cues now, ?_, ?_⟩
        · rw [heq]
          exact hmem_self
        · show c ∈ cues.map engine_norm
          exact (mem_listed_norms.1 hc).1
      · cases h0 : alookup e.cue_index c with
        | none =>
          rw [h0] at hmem
          exact absurd hmem (by simp)
        | some l0 =>
          rw [h0] at hmem
          simp only [Option.getD_some] at hmem
          rcases h4 c l0 h0 id' hmem with ⟨m, hm, hcm⟩
          have hne : id' ≠ id := by
            intro hh
            rw [hh, hid] at hm
            exact absurd hm (by simp)
          exact ⟨m, by rw [hmem_ne id' hne]; exact hm, hcm⟩
    · rw [if_neg hc] at hl
      rcases h4 c l hl id' hid' with ⟨m, hm, hcm⟩
      have hne : id' ≠ id := by
        intro hh
        rw [hh, hid] at hm
        exact absurd hm (by simp)
      exact ⟨m, by rw [hmem_ne id' hne]; exact hm, hcm⟩
  · intro k m hm cu hcu hnz
    by_cases hk : k = id
    · subst hk
      rw [hmem_self] at hm
      injection hm with hm
      rw [← hm] at hcu
      have hcu' : cu ∈ cues := hcu
      have hcc : engine_norm cu ∈ listed_norms cues :=
        mem_listed_norms.2 ⟨List.mem_map_of_mem engine_norm hcu', hnz⟩
      rw [hidx (engine_norm cu), if_pos hcc]
      exact ⟨_, rfl, (OrderedSet.mem_add _ _ _).2 (Or.inl rfl)⟩
    · rw [hmem_ne k hk] at hm
      rcases h5 k m hm cu hcu hnz with ⟨l, hl, hkl⟩
      rw [hidx (engine_norm cu)]
      by_cases hcc : engine_norm cu ∈ listed_norms cues
      · rw [if_pos hcc, hl]
        exact ⟨_, rfl, (OrderedSet.mem_add _ _ _).2 (Or.inr hkl)⟩
      · rw [if_neg hcc]
        exact ⟨l, hl, hkl⟩

/-- reinforce_memory preserves the engine invariant. -/
theorem reinforce_memory_inv (e : Engine) (id : String)
    (cues : List String) (now : Nat) (hinv : EngineInv e) :
    EngineInv (reinforce_memory e id cues now).2 := by
  obtain ⟨h1, h2, h3, h4, h5⟩ := hinv
  cases hm0 : alookup e.memories id with
  | none =>
    unfold reinforce_memory
    rw [hm0]
    exact ⟨h1, h2, h3, h4, h5⟩
  | some m0 =>
    unfold reinforce_memory
    rw [hm0]
    simp only
    have hmem : ∀ k, alookup (amodify e.memories id
        (fun m => m.touch now)) k
        = if k = id then some (m0.touch now) else alookup e.memories k := by
      intro k
      by_cases hk : k = id
      · rw [hk, if_pos rfl, alookup_amodify_self, hm0]
        rfl
      · rw [if_neg hk]
        exact alookup_amodify_ne _ _ _ _ hk
    have hidx : ∀ c, alookup (cues.foldl (fun idx c =>
        if engine_norm c = "" then idx
        else aupdate idx (engine_norm c) []
          (fun l => OrderedSet.move_to_front l id)) e.cue_index) c
        = if c ∈ listed_norms cues then
            some (OrderedSet.move_to_front
              ((alookup e.cue_index c).getD []) id)
          else alookup e.cue_index c :=
      fold_aupdate_lookup _
        (fun l => OrderedSet.move_to_front_idem l id) cues e.cue_index
    refine ⟨?_, ?_, ?_, ?_, ?_⟩
    · rw [amodify_map_fst]
      exact h1
    · exact fold_aupdate_keys_nodup _ cues _ h2
    · intro c l hl
      rw [hidx c] at hl
      by_cases hc : c ∈ listed_norms cues
      · rw [if_pos hc] at hl
        injection hl with hl
        rw [← hl]
        apply OrderedSet.nodup_move_to_front
        cases h0 : alookup e.cue_index c with
        | none => simp
        | some l0 => simpa [h0] using h3 c l0 h0
      · rw [if_neg hc] at hl
        exact h3 c l hl
    · intro c l hl id' hid'
      have hprov : ∃ m, alookup e.memories id' = some m
          ∧ c ∈ m.cues.map engine_norm := by
        rw [hidx c] at hl
        by_cases hc : c ∈ listed_norms cues
        · rw [if_pos hc] at hl
          injection hl with hl
          rw [← hl] at hid'
          rw [OrderedSet.mem_move_to_front] at hid'
          cases h0 : alookup e.cue_index c with
          | none =>
            rw [h0] at hid'
            exact absurd hid' (by simp)
          | some l0 =>
            rw [h0] at hid'
            simp only [Option.getD_some] at hid'
            exact h4 c l0 h0 id' hid'
        · rw [if_neg hc] at hl
          exact h4 c l hl id' hid'
      rcases hprov with ⟨m, hm, hcm⟩
      by_cases hk : id' = id
      · refine ⟨m0.touch now, by rw [hmem id', if_pos hk], ?_⟩
        have hm0' : m = m0 := by
          rw [hk, hm0] at hm
          injection hm with hv
          exact hv.symm
        show c ∈ (m0.touch now).cues.map engine_norm
        rw [show (m0.touch now).cues = m0.cues from rfl, ← hm0']
        exact hcm
      · exact ⟨m, by rw [hmem id', if_neg hk]; exact hm, hcm⟩
    · intro k m hm cu hcu hnz
      rw [hmem k] at hm
      have hlook : ∃ mold, alookup e.memories k = some mold
          ∧ mold.cues = m.cues := by
        by_cases hk : k = id
        · rw [if_pos hk] at hm
          injection hm with hm
          refine ⟨m0, by rw [hk]; exact hm0, ?_⟩
          rw [← hm]
          rfl
        · rw [if_neg hk] at hm
          exact ⟨m, hm, rfl⟩
      rcases hlook with ⟨mold, hmold, hcues⟩
      rcases h5 k mold hmold cu (by rw [hcues]; exact hcu) hnz
        with ⟨l, hl, hkl⟩
      rw [hidx (engine_norm cu)]
      by_cases hcc : engine_norm cu ∈ listed_norms cues
      · rw [if_pos hcc, hl]
        refine ⟨_, rfl, ?_⟩
        rw [OrderedSet.mem_move_to_front]
        exact hkl
      · rw [if_neg hcc]
        exact ⟨l, hl, hkl⟩

/-- attach_cues preserves the engine invariant. -/
theorem attach_cues_inv (e : Engine) (id : String) (cues : List String)
    (hinv : EngineInv e) : EngineInv (attach_cues e id cues).2 := by
  obtain ⟨h1, h2, h3, h4, h5⟩ := hinv
  cases hm0 : alookup e.memories id with
  | none =>
    unfold attach_cues
    rw [hm0]
    exact ⟨h1, h2, h3, h4, h5⟩
  | some m =>
    unfold attach_cues
    rw [hm0]
    dsimp only
    by_cases hne : (cues.filter (fun c => c ∉ m.cues)).isEmpty
    · rw [if_pos hne]
      exact ⟨h1, h2, h3, h4, h5⟩
    · rw [if_neg hne]
      dsimp only
      set new_cues := cues.filter (fun c => c ∉ m.cues) with hnc
      have hmem : ∀ k, alookup (amodify e.memories id
          (fun m2 => { m2 with cues := m2.cues ++ new_cues })) k
          = if k = id then some { m with cues := m.cues ++ new_cues }
            else alookup e.memories k := by
        intro k
        by_cases hk : k = id
        · rw [hk, if_pos rfl, alookup_amodify_self, hm0]
          rfl
        · rw [if_neg hk]
          exact alookup_amodify_ne _ _ _ _ hk
      have hidx : ∀ c, alookup (new_cues.foldl
          (fun idx c => index_cue idx c id) e.cue_index) c
          = if c ∈ listed_norms new_cues then
              some (OrderedSet.add ((alookup e.cue_index c).getD []) id)
            else alookup e.cue_index c := by
        intro c
        rw [index_cue_fold_eq]
        exact fold_aupdate_lookup _ (fun l => OrderedSet.add_idem l id)
          new_cues e.cue_index c
      refine ⟨?_, ?_, ?_, ?_, ?_⟩
      · rw [amodify_map_fst]
        exact h1
      · rw [index_cue_fold_eq]
        exact fold_aupdate_keys_nodup _ new_cues _ h2
      · intro c l hl
        rw [hidx c] at hl
        by_cases hc : c ∈ listed_norms new_cues
        · rw [if_pos hc] at hl
          injection hl with hl
          rw [← hl]
          apply OrderedSet.nodup_add
          cases h0 : alookup e.cue_index c with
          | none => simp
          | some l0 => simpa [h0] using h3 c l0 h0
        · rw [if_neg hc] at hl
          exact h3 c l hl
      · intro c l hl id' hid'
        have hsup : ∀ mo, alookup e.memories id' = some mo →
            c ∈ mo.cues.map engine_norm →
            ∃ m2, alookup (amodify e.memories id
              (fun m2 => { m2 with cues := m2.cues ++ new_cues })) id'
                = some m2 ∧ c ∈ m2.cues.map engine_norm := by
          intro mo hmo hcm
          by_cases hk : id' = id
          · have hmo' : mo = m := by
              rw [hk, hm0] at hmo
              injection hmo with hv
              exact hv.symm
            refine ⟨{ m with cues := m.cues ++ new_cues },
              by rw [hmem id', if_pos hk], ?_⟩
            show c ∈ (m.cues ++ new_cues).map engine_norm
            rw [List.map_append]
            exact List.mem_append.2 (Or.inl (hmo' ▸ hcm))
          · exact ⟨mo, by rw [hmem id', if_neg hk]; exact hmo, hcm⟩
        rw [hidx c] at hl
        by_cases hc : c ∈ listed_norms new_cues
        · rw [if_pos hc] at hl
          injection hl with hl
          rw [← hl] at hid'
          rcases (OrderedSet.mem_add _ _ _).1 hid' with heq | hmemb
          · refine ⟨{ m with cues := m.cues ++ new_cues },
              by rw [hmem id', if_pos heq], ?_⟩
            show c ∈ (m.cues ++ new_cues).map engine_norm
            rw [List.map_append]
            refine List.mem_append.2 (Or.inr ?_)
            exact (mem_listed_norms.1 hc).1
          · cases h0 : alookup e.cue_index c with
            | none =>
              rw [h0] at hmemb
              exact absurd hmemb (by simp)
            | some l0 =>
              rw [h0] at hmemb
              simp only [Option.getD_some] at hmemb
              rcases h4 c l0 h0 id' hmemb with ⟨mo, hmo, hcm⟩
              exact hsup mo hmo hcm
        · rw [if_neg hc] at hl
          rcases h4 c l hl id' hid' with ⟨mo, hmo, hcm⟩
          exact hsup mo hmo hcm
      · intro k m' hm' cu hcu hnz
        rw [hmem k] at hm'
        by_cases hk : k = id
        · rw [if_pos hk] at hm'
          injection hm' with hm'
          rw [← hm'] at hcu
          have hcu2 : cu ∈ m.cues ++ new_cues := hcu
          rcases List.mem_append.1 hcu2 with hcuo | hcun
          · rcases h5 k m (by rw [hk]; exact hm0) cu hcuo hnz
              with ⟨l, hl, hkl⟩
            rw [hidx (engine_norm cu)]
            by_cases hcc : engine_norm cu ∈ listed_norms new_cues
            · rw [if_pos hcc, hl]
              exact ⟨_, rfl, (OrderedSet.mem_add _ _ _).2 (Or.inr hkl)⟩
            · rw [if_neg hcc]
              exact ⟨l, hl, hkl⟩
          · have hcc : engine_norm cu ∈ listed_norms new_cues :=
              mem_listed_norms.2
                ⟨List.mem_map_of_mem engine_norm hcun, hnz⟩
            rw [hidx (engine_norm cu), if_pos hcc]
            refine ⟨_, rfl, ?_⟩
            rw [hk]
            exact (OrderedSet.mem_add _ _ _).2 (Or.inl rfl)
        · rw [if_neg hk] at hm'
          rcases h5 k m' hm' cu hcu hnz with ⟨l, hl, hkl⟩
          rw [hidx (engine_norm cu)]
          by_cases hcc : engine_norm cu ∈ listed_norms new_cues
          · rw [if_pos hcc, hl]
            exact ⟨_, rfl, (OrderedSet.mem_add _ _ _).2 (Or.inr hkl)⟩
          · rw [if_neg hcc]
            exact ⟨l, hl, hkl⟩

/-- delete_memory preserves the engine invariant. -/
theorem delete_memory_inv (e : Engine) (id : String)
    (hinv : EngineInv e) : EngineInv (delete_memory e id).2 := by
  obtain ⟨h1, h2, h3, h4, h5⟩ := hinv
  cases hm0 : alookup e.memories id with
  | none =>
    unfold delete_memory
    rw [hm0]
    exact ⟨h1, h2, h3, h4, h5⟩
  | some m =>
    unfold delete_memory
    rw [hm0]
    simp only
    have hmem : ∀ k, alookup (aremove e.memories id) k
        = if k = id then none else alookup e.memories k := by
      intro k
      by_cases hk : k = id
      · rw [hk, if_pos rfl]
        exact alookup_aremove_self _ _
      · rw [if_neg hk]
        exact alookup_aremove_ne _ _ _ hk
    have hidx : ∀ c, alookup (m.cues.foldl (fun idx c =>
        amodify idx (engine_norm c)
          (fun l => OrderedSet.remove l id)) e.cue_index) c
        = if c ∈ m.cues.map engine_norm then
            (alookup e.cue_index c).map
              (fun l => OrderedSet.remove l id)
          else alookup e.cue_index c :=
      fold_amodify_lookup _ (fun l => OrderedSet.remove_idem l id)
        m.cues e.cue_index
    refine ⟨?_, ?_, ?_, ?_, ?_⟩
    · exact aremove_keys_nodup _ _ h1
    · rw [fold_amodify_map_fst]
      exact h2
    · intro c l hl
      rw [hidx c] at hl
      by_cases hc : c ∈ m.cues.map engine_norm
      · rw [if_pos hc] at hl
        cases h0 : alookup e.cue_index c with
        | none =>
          rw [h0] at hl
          exact absurd hl (by simp)
        | some l0 =>
          rw [h0] at hl
          injection hl with hl
          rw [← hl]
          exact OrderedSet.nodup_remove _ _ (h3 c l0 h0)
      · rw [if_neg hc] at hl
        exact h3 c l hl
    · intro c l hl id' hid'
      rw [hidx c] at hl
      by_cases hc : c ∈ m.cues.map engine_norm
      · rw [if_pos hc] at hl
        cases h0 : alookup e.cue_index c with
        | none =>
          rw [h0] at hl
          exact absurd hl (by simp)
        | some l0 =>
          rw [h0] at hl
          injection hl with hl
          rw [← hl] at hid'
          rw [OrderedSet.mem_remove] at hid'
          rcases h4 c l0 h0 id' hid'.1 with ⟨mo, hmo, hcm⟩
          exact ⟨mo, by rw [hmem id', if_neg hid'.2]; exact hmo, hcm⟩
      · rw [if_neg hc] at hl
        rcases h4 c l hl id' hid' with ⟨mo, hmo, hcm⟩
        have hne : id' ≠ id := by
          intro hh
          rw [hh, hm0] at hmo
          injection hmo with hmo
          rw [hmo] at hc
          exact hc hcm
        exact ⟨mo, by rw [hmem id', if_neg hne]; exact hmo, hcm⟩
    · intro k m' hm' cu hcu hnz
      rw [hmem k] at hm'
      by_cases hk : k = id
      · rw [if_pos hk] at hm'
        exact absurd hm' (by simp)
      · rw [if_neg hk] at hm'
        rcases h5 k m' hm' cu hcu hnz with ⟨l, hl, hkl⟩
        rw [hidx (engine_norm cu)]
        by_cases hcc : engine_norm cu ∈ m.cues.map engine_norm
        · rw [if_pos hcc, hl]
          refine ⟨_, rfl, ?_⟩
          rw [OrderedSet.mem_remove]
          exact ⟨hkl, hk⟩
        · rw [if_neg hcc]
          exact ⟨l, hl, hkl⟩

theorem engineInv_empty : EngineInv Engine.empty := by
  refine ⟨by simp [Engine.empty], by simp [Engine.empty], ?_, ?_, ?_⟩
  · intro c l hl
    exact absurd hl (by simp [Engine.empty, alookup])
  · intro c l hl
    exact absurd hl (by simp [Engine.empty, alookup])
  · intro k m hm
    exact absurd hm (by simp [Engine.empty, alookup])

/-- Every valid trace preserves the engine invariant. -/
theorem engineInv_runOps (ops : List Op) (e : Engine) (he : EngineInv e)
    (hv : validTrace e ops = true) : EngineInv (runOps e ops) := by
  induction ops generalizing e with
  | nil => exact he
  | cons op ops ih =>
    unfold validTrace at hv
    rw [Bool.and_eq_true] at hv
    rcases hv with ⟨hguard, hrest⟩
    show EngineInv (List.foldl applyOp e (op :: ops))
    rw [List.foldl_cons]
    refine ih (applyOp e op) ?_ hrest
    cases op with
    | add id content cues md now =>
      simp only [Option.isNone_iff_eq_none] at hguard
      exact add_memory_inv e id content cues md now he hguard
    | reinforce id cues now => exact reinforce_memory_inv e id cues now he
    | attach id cues => exact attach_cues_inv e id cues he
    | del id => exact delete_memory_inv e id he

/-- C3 (amended): after any valid finite sequence of add_memory,
reinforce_memory, attach_cues and delete_memory operations from the
empty engine, every memory still present is indexed under the nonempty
lowercase-trimmed form of each of its cues, and its id appears in no
Ordered Set whose cue is not such a normalized form of one of its cues
(the raw cue strings of the claim are replaced by their normalized
forms, which is what the engine indexes). -/
theorem c3_index_consistency (ops : List Op)
    (hv : validTrace Engine.empty ops = true) :
    ∀ p ∈ (runOps Engine.empty ops).memories,
      (∀ c ∈ (p.2 : Memory).cues, engine_norm c ≠ "" →
        ∃ l, alookup (runOps Engine.empty ops).cue_index (engine_norm c)
            = some l ∧ p.1 ∈ l) ∧
      (∀ q ∈ (runOps Engine.empty ops).cue_index, p.1 ∈ q.2 →
        q.1 ∈ (p.2 : Memory).cues.map engine_norm) := by
  have hinv := engineInv_runOps ops Engine.empty engineInv_empty hv
  obtain ⟨h1, h2, h3, h4, h5⟩ := hinv
  intro p hp
  have hlp : alookup (runOps Engine.empty ops).memories p.1 = some p.2 :=
    alookup_of_mem h1 hp
  constructor
  · intro c hc hnz
    exact h5 p.1 p.2 hlp c hc hnz
  · intro q hq hmem
    have hlq : alookup (runOps Engine.empty ops).cue_index q.1 = some q.2 :=
      alookup_of_mem h2 hq
    rcases h4 q.1 q.2 hlq p.1 hmem with ⟨m, hm, hcm⟩
    have hmp : m = p.2 := by
      rw [hlp] at hm
      injection hm with hv2
      exact hv2.symm
    rw [hmp] at hcm
    exact hcm

/-- C3: the claim fails on the code as stated over raw cue strings.
add_memory stores the raw cues in memory.cues but indexes their
lowercase-trimmed forms: after adding a memory with cue A, the memory
list holds cue A while the index only has an entry a, so the id is
neither in the Ordered Set of A (none exists) nor is the entry a among
the memory's cues. -/
theorem c3_counterexample :
    validTrace Engine.empty [Op.add "m1" "x" ["A"] [] 0] = true ∧
    ¬ (∀ p ∈ (runOps Engine.empty [Op.add "m1" "x" ["A"] [] 0]).memories,
        (∀ c ∈ (p.2 : Memory).cues,
          ∃ l, alookup (runOps Engine.empty
              [Op.add "m1" "x" ["A"] [] 0]).cue_index c = some l ∧
            p.1 ∈ l) ∧
        (∀ q ∈ (runOps Engine.empty [Op.add "m1" "x" ["A"] [] 0]).cue_index,
          p.1 ∈ q.2 → q.1 ∈ (p.2 : Memory).cues)) := by
  decide

/-- C3 witness: the amended invariant theorem applied to a concrete
valid trace exercising add, attach, reinforce and delete with empty,
mixed-case and whitespace-carrying cues. -/
theorem c3_witness :
    validTrace Engine.empty c3ops = true ∧
    ∀ p ∈ (runOps Engine.empty c3ops).memories,
      (∀ c ∈ (p.2 : Memory).cues, engine_norm c ≠ "" →
        ∃ l, alookup (runOps Engine.empty c3ops).cue_index (engine_norm c)
            = some l ∧ p.1 ∈ l) ∧
      (∀ q ∈ (runOps Engine.empty c3ops).cue_index, p.1 ∈ q.2 →
        q.1 ∈ (p.2 : Memory).cues.map engine_norm) :=
  ⟨by decide, c3_index_consistency c3ops (by decide)⟩

/-! # The consolidated recall ranker: gathering invariants -/

/-- The total_weight accumulator of consolidated_search is the sum of the
weight components of the positions_info list. -/
theorem sum_weights_eq (info : List (Nat × Nat × ℝ)) :
    sum_weights info = (info.map (fun t => t.2.2)).sum := by
  have key : ∀ (l : List (Nat × Nat × ℝ)) (a : ℝ),
      l.foldl (fun a t => a + t.2.2) a = a + (l.map (fun t => t.2.2)).sum := by
    intro l
    induction l with
    | nil => intro a; simp
    | cons x xs ih =>
      intro a
      simp only [List.foldl_cons, List.map_cons, List.sum_cons, ih, add_assoc]
  unfold sum_weights
  rw [key, zero_add]

/-- Every driving cue's probe of a candidate yields at least the driving
cue's own entry, so positions_info is never empty. -/
theorem probe_all_ne_nil (cd : List CueData) (ci pos : Nat) (id : String)
    (hci : ci < cd.length) : probe_all cd ci pos id ≠ [] := by
  apply List.ne_nil_of_mem
    (a := (pos, (cd.get ⟨ci, hci⟩).2.2.length, (cd.get ⟨ci, hci⟩).2.1))
  unfold probe_all
  apply List.mem_filterMap.mpr
  refine ⟨(ci, cd.get ⟨ci, hci⟩), ?_, ?_⟩
  · apply List.mem_enum_iff_getElem?.mpr
    simp [List.getElem?_eq_getElem hci]
  · simp

/-- The enumerated scan of one ordered set preserves the candidate
accumulator invariant. -/
theorem scan_fold_inv (cd : List CueData) (ci : Nat) (hci : ci < cd.length)
    (prs : List (Nat × String)) (st : List String × List Candidate)
    (h : CandInv st) :
    CandInv (prs.foldl (fun st pr =>
      if pr.2 ∈ st.1 then st
      else
        let info := probe_all cd ci pr.1 pr.2
        (pr.2 :: st.1, st.2 ++ [(pr.2, info, sum_weights info)])) st) := by
  induction prs generalizing st with
  | nil => exact h
  | cons pr prs ih =>
    rw [List.foldl_cons]
    by_cases hseen : pr.2 ∈ st.1
    · rw [if_pos hseen]
      exact ih st h
    · rw [if_neg hseen]
      apply ih
      obtain ⟨h1, h2, h3⟩ := h
      refine ⟨?_, ?_, ?_⟩
      · dsimp only
        rw [List.map_append]
        rw [List.nodup_append]
        refine ⟨h1, List.nodup_singleton _, ?_⟩
        intro x hx hx2
        have hx1 : x ∈ st.1 := by
          rcases List.mem_map.mp hx with ⟨c, hc, hcx⟩
          rw [← hcx]; exact h2 c hc
        rw [List.mem_singleton.mp hx2] at hx1
        exact hseen hx1
      · intro x hx
        dsimp only at hx ⊢
        rcases List.mem_append.mp hx with hx | hx
        · exact List.mem_cons_of_mem _ (h2 x hx)
        · rw [List.mem_singleton.mp hx]
          exact List.mem_cons_self _ _
      · intro x hx
        dsimp only at hx
        rcases List.mem_append.mp hx with hx | hx
        · exact h3 x hx
        · rw [List.mem_singleton.mp hx]
          exact ⟨probe_all_ne_nil cd ci pr.1 pr.2 hci, rfl⟩

/-- scan_set preserves the candidate accumulator invariant. -/
theorem scan_set_inv (cd : List CueData) (ci : Nat) (hci : ci < cd.length)
    (s : List String) (st : List String × List Candidate)
    (h : CandInv st) : CandInv (scan_set cd ci s st) := by
  unfold scan_set
  exact scan_fold_inv cd ci hci _ st h

/-- The union fold over all driving cues preserves the candidate
accumulator invariant. -/
theorem gather_fold_inv (cd : List CueData) (prs : List (Nat × CueData))
    (hprs : ∀ p ∈ prs, p.1 < cd.length)
    (st : List String × List Candidate) (h : CandInv st) :
    CandInv (prs.foldl (fun st p => scan_set cd p.1 p.2.2.2 st) st) := by
  induction prs generalizing st with
  | nil => exact h
  | cons p prs ih =>
    rw [List.foldl_cons]
    apply ih (fun q hq => hprs q (List.mem_cons_of_mem _ hq))
    exact scan_set_inv cd p.1 (hprs p (List.mem_cons_self _ _)) p.2.2.2 st h

/-- The candidates gathered by consolidated_search have duplicate-free
ids, nonempty positions_info, and total weight equal to the sum over
their positions_info. -/
theorem gather_candidates_inv (cd : List CueData) :
    (((gather_candidates cd).map (fun c => c.1)).Nodup) ∧
    (∀ x ∈ gather_candidates cd,
      x.2.1 ≠ [] ∧ x.2.2 = sum_weights x.2.1) := by
  have hprs : ∀ p ∈ cd.enum, p.1 < cd.length := by
    intro p hp
    have := List.mem_enum_iff_getElem?.mp hp
    exact (List.getElem?_eq_some.mp this).1
  have h := gather_fold_inv cd cd.enum hprs ([], [])
    ⟨List.nodup_nil, by intro x hx; exact absurd hx (List.not_mem_nil x),
     by intro x hx; exact absurd hx (List.not_mem_nil x)⟩
  unfold gather_candidates
  exact ⟨h.1, h.2.2⟩

/-! # The consolidated recall ranker: scoring -/

/-- The three-component score accumulator of score_one equals the triple
of per-component sums over the positions_info list. -/
theorem score_acc_eq (info : List (Nat × Nat × ℝ)) (a b c : ℝ) :
    info.foldl (fun (a : ℝ × ℝ × ℝ) t =>
      let pos : ℝ := t.1
      let list_len : ℝ := t.2.1
      let sigma := Real.sqrt list_len
      let ratio := pos / sigma
      let w_rec : ℝ := 20 / (ratio + 1)
      let w_freq : ℝ := 1 + 5 * (1 - 1 / (ratio + 1))
      let recency_component : ℝ :=
        1 / (pos + 1) + (if t.1 = 0 then 1 else 0)
      (a.1 + recency_component * t.2.2, a.2.1 + w_rec, a.2.2 + w_freq))
      (a, b, c)
    = (a + (info.map (fun t =>
          ((1:ℝ) / ((t.1 : ℝ) + 1) + (if t.1 = 0 then (1:ℝ) else 0))
            * t.2.2)).sum,
       b + (info.map (fun t =>
          (20:ℝ) / ((t.1 : ℝ) / Real.sqrt (t.2.1 : ℝ) + 1))).sum,
       c + (info.map (fun t =>
          (1:ℝ) + 5 * (1 - 1 / ((t.1 : ℝ) / Real.sqrt (t.2.1 : ℝ) + 1)))).sum)
    := by
  induction info generalizing a b c with
  | nil => simp
  | cons x xs ih =>
    simp only [List.foldl_cons, List.map_cons, List.sum_cons]
    rw [ih]
    simp only [Prod.mk.injEq]
    refine ⟨by ring, by ring, by ring⟩

/-- Inversion of score_one: a produced result copies the looked-up
memory's content and metadata, reports the candidate id and match count,
and carries exactly the source's score formula, phrased with sums. -/
theorem score_one_spec (e : Engine) (c : Candidate) (r : RecallResult)
    (h : score_one e c = some r) :
    ∃ m : Memory, alookup e.memories c.1 = some m ∧
      r.memory_id = c.1 ∧ r.content = m.content ∧ r.metadata = m.metadata ∧
      r.intersection_count = c.2.1.length ∧
      r.reinforcement_score =
        (if 0 < m.reinforcement_count then
          Real.logb 10 (m.reinforcement_count : ℝ) else 0) ∧
      r.score = c.2.2 * 100
        + ((c.2.1.map (fun t =>
            ((1:ℝ) / ((t.1 : ℝ) + 1) + (if t.1 = 0 then (1:ℝ) else 0))
              * t.2.2)).sum / (c.2.1.length : ℝ))
          * ((c.2.1.map (fun t =>
            (20:ℝ) / ((t.1 : ℝ) / Real.sqrt (t.2.1 : ℝ) + 1))).sum
            / (c.2.1.length : ℝ))
        + (if 0 < m.reinforcement_count then
            Real.logb 10 (m.reinforcement_count : ℝ) else 0)
          * ((c.2.1.map (fun t =>
            (1:ℝ) + 5 * (1 - 1 / ((t.1 : ℝ) / Real.sqrt (t.2.1 : ℝ) + 1)))).sum
            / (c.2.1.length : ℝ)) := by
  unfold score_one at h
  rw [Option.map_eq_some'] at h
  obtain ⟨m, hm, hF⟩ := h
  subst hF
  refine ⟨m, hm, rfl, rfl, rfl, rfl, rfl, ?_⟩
  dsimp only
  rw [score_acc_eq]
  dsimp only
  rw [zero_add, zero_add, zero_add]

/-- insert_desc permutes insertion at the head. -/
theorem insert_desc_perm (r : RecallResult) (l : List RecallResult) :
    (insert_desc r l).Perm (r :: l) := by
  induction l with
  | nil => exact List.Perm.refl _
  | cons x xs ih =>
    unfold insert_desc
    by_cases hx : x.score < r.score
    · rw [if_pos hx]
    · rw [if_neg hx]
      exact List.Perm.trans (List.Perm.cons x ih) (List.Perm.swap r x xs)

/-- The descending sort of recall_weighted permutes its input. -/
theorem sort_by_score_desc_perm (l : List RecallResult) :
    (sort_by_score_desc l).Perm l := by
  unfold sort_by_score_desc
  induction l with
  | nil => exact List.Perm.refl _
  | cons x xs ih =>
    rw [List.foldr_cons]
    exact List.Perm.trans (insert_desc_perm x _) (List.Perm.cons x ih)

/-- Every consolidated_search result arises from a gathered candidate
that score_one maps onto it. -/
theorem mem_consolidated_search (e : Engine) (qc : List (String × ℝ))
    (r : RecallResult) (h : r ∈ consolidated_search e qc) :
    ∃ c ∈ gather_candidates (qc.filterMap (fun p =>
        (alookup e.cue_index p.1).map (fun s => (p.1, p.2, s)))),
      score_one e c = some r := by
  unfold consolidated_search at h
  by_cases h1 : qc.isEmpty
  · rw [if_pos h1] at h
    exact absurd h (List.not_mem_nil r)
  · rw [if_neg h1] at h
    by_cases h2 : (qc.filterMap (fun p =>
        (alookup e.cue_index p.1).map (fun s => (p.1, p.2, s)))).isEmpty
    · rw [if_pos h2] at h
      exact absurd h (List.not_mem_nil r)
    · rw [if_neg h2] at h
      unfold score_consolidated_candidates at h
      rcases List.mem_filterMap.mp h with ⟨c, hc, hcr⟩
      exact ⟨c, hc, hcr⟩

/-- Every recall_weighted result is a consolidated_search result over the
normalized, index-present query cues. -/
theorem mem_recall_weighted (e : Engine) (q : List (String × ℝ))
    (lim : Nat) (mi : Option Nat) (r : RecallResult)
    (h : r ∈ recall_weighted e q lim mi) :
    r ∈ consolidated_search e
      ((q.map (fun p => (engine_norm p.1, p.2))).filter
        (fun p => p.1 ≠ "" ∧ (alookup e.cue_index p.1).isSome)) := by
  unfold recall_weighted at h
  by_cases h1 : q.isEmpty
  · rw [if_pos h1] at h
    exact absurd h (List.not_mem_nil r)
  · rw [if_neg h1] at h
    dsimp only at h
    by_cases h2 : ((q.map (fun p => (engine_norm p.1, p.2))).filter
        (fun p => p.1 ≠ "" ∧ (alookup e.cue_index p.1).isSome)).isEmpty
    · rw [if_pos h2] at h
      exact absurd h (List.not_mem_nil r)
    · rw [if_neg h2] at h
      cases mi with
      | none =>
        dsimp only at h
        have h3 := List.mem_of_mem_take h
        exact (sort_by_score_desc_perm _).mem_iff.mp h3
      | some v =>
        dsimp only at h
        have h3 := List.mem_of_mem_take h
        have h4 := (sort_by_score_desc_perm _).mem_iff.mp h3
        exact (List.mem_filter.mp h4).1

/-- Every recall_weighted result arises from a gathered candidate of the
normalized query that score_one maps onto it. -/
theorem recall_provenance (e : Engine) (q : List (String × ℝ))
    (lim : Nat) (mi : Option Nat) (r : RecallResult)
    (h : r ∈ recall_weighted e q lim mi) :
    ∃ c ∈ gather_candidates
        (((q.map (fun p => (engine_norm p.1, p.2))).filter
          (fun p => p.1 ≠ "" ∧ (alookup e.cue_index p.1).isSome)).filterMap
          (fun p => (alookup e.cue_index p.1).map (fun s => (p.1, p.2, s)))),
      score_one e c = some r :=
  mem_consolidated_search e _ r (mem_recall_weighted e q lim mi r h)

/-- The scored results' ids form a sublist of the candidates' ids:
score_one keeps the candidate id and drops candidates without a backing
memory. -/
theorem scoreCC_ids_sublist (e : Engine) (cands : List Candidate) :
    ((score_consolidated_candidates e cands).map
      (fun r => r.memory_id)).Sublist (cands.map (fun c => c.1)) := by
  induction cands with
  | nil => simp [score_consolidated_candidates]
  | cons c cs ih =>
    unfold score_consolidated_candidates at ih ⊢
    rw [List.filterMap_cons]
    cases hs : score_one e c with
    | none =>
      rw [List.map_cons]
      exact List.Sublist.cons _ ih
    | some r =>
      rw [List.map_cons, List.map_cons]
      have hid : r.memory_id = c.1 := by
        obtain ⟨m, _, hid, _⟩ := score_one_spec e c r hs
        exact hid
      rw [hid]
      exact List.Sublist.cons₂ _ ih

/-- consolidated_search returns pairwise-distinct memory ids. -/
theorem cs_ids_nodup (e : Engine) (qc : List (String × ℝ)) :
    ((consolidated_search e qc).map (fun r => r.memory_id)).Nodup := by
  unfold consolidated_search
  by_cases h1 : qc.isEmpty
  · rw [if_pos h1]; exact List.nodup_nil
  · rw [if_neg h1]
    by_cases h2 : (qc.filterMap (fun p =>
        (alookup e.cue_index p.1).map (fun s => (p.1, p.2, s)))).isEmpty
    · rw [if_pos h2]; exact List.nodup_nil
    · rw [if_neg h2]
      exact List.Nodup.sublist (scoreCC_ids_sublist e _)
        (gather_candidates_inv _).1

/-- recall_weighted returns pairwise-distinct memory ids. -/
theorem recall_ids_nodup (e : Engine) (q : List (String × ℝ)) (lim : Nat)
    (mi : Option Nat) :
    ((recall_weighted e q lim mi).map (fun r => r.memory_id)).Nodup := by
  unfold recall_weighted
  by_cases h1 : q.isEmpty
  · rw [if_pos h1]; exact List.nodup_nil
  · rw [if_neg h1]
    by_cases h2 : ((q.map (fun p => (engine_norm p.1, p.2))).filter
        (fun p => p.1 ≠ "" ∧ (alookup e.cue_index p.1).isSome)).isEmpty
    · rw [if_pos h2]; exact List.nodup_nil
    · rw [if_neg h2]
      have base := cs_ids_nodup e
        ((q.map (fun p => (engine_norm p.1, p.2))).filter
          (fun p => p.1 ≠ "" ∧ (alookup e.cue_index p.1).isSome))
      cases mi with
      | none =>
        dsimp only
        apply List.Nodup.sublist
          (List.Sublist.map _ (List.take_sublist _ _))
        exact ((sort_by_score_desc_perm _).map _).nodup_iff.mpr base
      | some v =>
        dsimp only
        apply List.Nodup.sublist
          (List.Sublist.map _ (List.take_sublist _ _))
        refine ((sort_by_score_desc_perm _).map _).nodup_iff.mpr ?_
        exact List.Nodup.sublist
          (List.Sublist.map _ (List.filter_sublist _)) base

/-- Recalling cue c on the one-memory engine e0 returns exactly one
result (computed structurally: the score components stay symbolic). -/
theorem recall_e0_len : (recall_weighted e0 [("c", 1)] 10 none).length = 1 :=
  rfl

/-- The e0 recall is nonempty, giving a concrete member for the recall
witnesses. -/
theorem recall_e0_ne_nil : recall_weighted e0 [("c", 1)] 10 none ≠ [] := by
  intro hnil
  have h := recall_e0_len
  rw [hnil] at h
  exact absurd h (by decide)

/-- C2: every result returned by a weighted recall carries the score
inter + recency · avg_w_rec + freq · avg_w_freq, where over the
candidate's k matches (p, len, w): inter is 100 times the sum of the
weights, recency the average of (1/(p+1) + 1 if p = 0) · w, avg_w_rec
the average of 20/(p/sqrt len + 1), avg_w_freq the average of
1 + 5·(1 − 1/(p/sqrt len + 1)), and freq the base-10 log of the scored
memory's reinforcement count when positive, else 0; k is reported as the
intersection count and is never zero. -/
theorem c2_score_formula (e : Engine) (q : List (String × ℝ)) (lim : Nat)
    (mi : Option Nat) (r : RecallResult)
    (h : r ∈ recall_weighted e q lim mi) :
    ∃ (info : List (Nat × Nat × ℝ)) (m : Memory),
      info ≠ [] ∧
      alookup e.memories r.memory_id = some m ∧
      r.intersection_count = info.length ∧
      r.score =
        100 * (info.map (fun t => t.2.2)).sum
        + ((info.map (fun t =>
            ((1:ℝ) / ((t.1 : ℝ) + 1) + (if t.1 = 0 then (1:ℝ) else 0))
              * t.2.2)).sum / (info.length : ℝ))
          * ((info.map (fun t =>
            (20:ℝ) / ((t.1 : ℝ) / Real.sqrt (t.2.1 : ℝ) + 1))).sum
            / (info.length : ℝ))
        + (if 0 < m.reinforcement_count then
            Real.logb 10 (m.reinforcement_count : ℝ) else 0)
          * ((info.map (fun t =>
            (1:ℝ) + 5 * (1 - 1 / ((t.1 : ℝ) / Real.sqrt (t.2.1 : ℝ) + 1)))).sum
            / (info.length : ℝ)) := by
  obtain ⟨c, hc, hsc⟩ := recall_provenance e q lim mi r h
  obtain ⟨hne, htw⟩ := (gather_candidates_inv _).2 c hc
  obtain ⟨m, hm, hid, hcont, hmeta, hic, hrs, hscore⟩ :=
    score_one_spec e c r hsc
  refine ⟨c.2.1, m, hne, ?_, hic, ?_⟩
  · rw [hid]; exact hm
  · rw [hscore, htw, sum_weights_eq]
    ring

/-- C2 witness: the score-formula theorem applied to the member of the
one-result recall on e0. -/
theorem c2_witness :
    ∃ r ∈ recall_weighted e0 [("c", 1)] 10 none,
      ∃ (info : List (Nat × Nat × ℝ)) (m : Memory),
        info ≠ [] ∧
        alookup e0.memories r.memory_id = some m ∧
        r.intersection_count = info.length ∧
        r.score =
          100 * (info.map (fun t => t.2.2)).sum
          + ((info.map (fun t =>
              ((1:ℝ) / ((t.1 : ℝ) + 1) + (if t.1 = 0 then (1:ℝ) else 0))
                * t.2.2)).sum / (info.length : ℝ))
            * ((info.map (fun t =>
              (20:ℝ) / ((t.1 : ℝ) / Real.sqrt (t.2.1 : ℝ) + 1))).sum
              / (info.length : ℝ))
          + (if 0 < m.reinforcement_count then
              Real.logb 10 (m.reinforcement_count : ℝ) else 0)
            * ((info.map (fun t =>
              (1:ℝ) + 5 * (1 - 1 / ((t.1 : ℝ) / Real.sqrt (t.2.1 : ℝ)
                + 1)))).sum / (info.length : ℝ)) := by
  obtain ⟨r, hr⟩ := List.exists_mem_of_ne_nil _ recall_e0_ne_nil
  exact ⟨r, hr, c2_score_formula e0 [("c", 1)] 10 none r hr⟩

/-- C5: the reinforcement counter semantics, the counter itself modelled
from the spec (section 4.2) since the Rust Memory struct in structures.rs
lacks the field the engine relies on: a fresh memory starts at count 0, a
successful reinforce rewrites exactly the touched memory with
last_accessed updated and the count incremented by one, and every recall
result's reinforcement_score is the base-10 log of the scored memory's
reinforcement count when positive, else 0. -/
theorem c5_reinforcement_log :
    (∀ (id content : String) (md : List (String × String))
        (cues : List String) (now : Nat),
      (Memory.new id content md cues now).reinforcement_count = 0) ∧
    (∀ (e : Engine) (id : String) (cues : List String) (now : Nat)
        (m : Memory), alookup e.memories id = some m →
      alookup (reinforce_memory e id cues now).2.memories id
        = some { m with last_accessed := now, reinforcement_count := m.reinforcement_count + 1 }) ∧
    (∀ (e : Engine) (q : List (String × ℝ)) (lim : Nat) (mi : Option Nat)
        (r : RecallResult), r ∈ recall_weighted e q lim mi →
      ∃ m : Memory, alookup e.memories r.memory_id = some m ∧
        r.reinforcement_score =
          if 0 < m.reinforcement_count then
            Real.logb 10 (m.reinforcement_count : ℝ) else 0) := by
  refine ⟨fun _ _ _ _ _ => rfl, ?_, ?_⟩
  · intro e id cues now m hm
    unfold reinforce_memory
    rw [hm]
    dsimp only
    rw [alookup_amodify_self, hm]
    rfl
  · intro e q lim mi r h
    obtain ⟨c, _, hsc⟩ := recall_provenance e q lim mi r h
    obtain ⟨m, hm, hid, _, _, _, hrs, _⟩ := score_one_spec e c r hsc
    exact ⟨m, by rw [hid]; exact hm, hrs⟩

/-- C5 witness: count 0 at creation, the increment on the one-memory
engine, and the log-frequency shape on the member of the e0 recall. -/
theorem c5_witness :
    ((Memory.new "m" "x" [] [] 0).reinforcement_count = 0) ∧
    (alookup (reinforce_memory c6Engine "m" ["z"] 5).2.memories "m"
      = some { Memory.new "m" "x" [] [] 0 with last_accessed := 5, reinforcement_count := (Memory.new "m" "x" [] [] 0).reinforcement_count + 1 }) ∧
    (∃ r ∈ recall_weighted e0 [("c", 1)] 10 none,
      ∃ m : Memory, alookup e0.memories r.memory_id = some m ∧
        r.reinforcement_score =
          if 0 < m.reinforcement_count then
            Real.logb 10 (m.reinforcement_count : ℝ) else 0) := by
  refine ⟨c5_reinforcement_log.1 "m" "x" [] [] 0, ?_, ?_⟩
  · exact c5_reinforcement_log.2.1 c6Engine "m" ["z"] 5
      (Memory.new "m" "x" [] [] 0) (by decide)
  · obtain ⟨r, hr⟩ := List.exists_mem_of_ne_nil _ recall_e0_ne_nil
    exact ⟨r, hr, c5_reinforcement_log.2.2 e0 [("c", 1)] 10 none r hr⟩

/-- C10: every recall returns pairwise-distinct memory ids, and each
result copies its content and metadata from a memory present in the
store at scoring time; a candidate whose memory is absent is silently
dropped by score_one, so it can never be reported. -/
theorem c10_recall_results_sourced (e : Engine) (q : List (String × ℝ))
    (lim : Nat) (mi : Option Nat) :
    ((recall_weighted e q lim mi).map (fun r => r.memory_id)).Nodup ∧
    ∀ r ∈ recall_weighted e q lim mi, ∃ m : Memory,
      alookup e.memories r.memory_id = some m ∧
      r.content = m.content ∧ r.metadata = m.metadata := by
  refine ⟨recall_ids_nodup e q lim mi, ?_⟩
  intro r hr
  obtain ⟨c, _, hsc⟩ := recall_provenance e q lim mi r hr
  obtain ⟨m, hm, hid, hcont, hmeta, _⟩ := score_one_spec e c r hsc
  exact ⟨m, by rw [hid]; exact hm, hcont, hmeta⟩

/-- C10 witness: distinct ids and the store-sourced fields on the
one-result e0 recall. -/
theorem c10_witness :
    ((recall_weighted e0 [("c", 1)] 10 none).map
      (fun r => r.memory_id)).Nodup ∧
    ∃ r ∈ recall_weighted e0 [("c", 1)] 10 none,
      ∃ m : Memory, alookup e0.memories r.memory_id = some m ∧
        r.content = m.content ∧ r.metadata = m.metadata := by
  refine ⟨(c10_recall_results_sourced e0 [("c", 1)] 10 none).1, ?_⟩
  obtain ⟨r, hr⟩ := List.exists_mem_of_ne_nil _ recall_e0_ne_nil
  exact ⟨r, hr,
    (c10_recall_results_sourced e0 [("c", 1)] 10 none).2 r hr⟩

/-- C4: the claim fails on the code.  The alias registry aliasReg holds a
single alias memory whose only status cue is status:proposed, and the
registry's index has no status:active entry at all; yet expanding the
query cue pay emits the derived pair (x:y, 0.85).  The recall inside
expand_query_cues queries the three cues type:alias, from:pay and
status:active with no minimum-intersection constraint, so an alias
matching only the first two cues is still returned and its target
emitted, deriving an expanded pair from a non-active alias. -/
theorem c4_proposed_alias_leaks :
    alookup aliasReg.memories "a1"
      = some (Memory.new "a1" aliasContent []
          ["type:alias", "from:pay", "status:proposed"] 0) ∧
    alookup aliasReg.cue_index "status:active" = none ∧
    ("x:y", (0.85 : ℝ)) ∈ expand_query_cues aliasReg ["pay"] ∧
    "x:y" ∉ (["pay"] : List String) := by
  refine ⟨by decide, by decide, ?_, by decide⟩
  have h : expand_query_cues aliasReg ["pay"]
      = [("pay", 1), ("x:y", 0.85)] := rfl
  rw [h]
  exact List.mem_cons_of_mem _ (List.mem_cons_self _ _)

end CueMap
